import Mathlib

/-!
# Verification of the `ruddy` BDD engine core

This file gives a shallow embedding, in Lean 4, of the core of the `ruddy`
binary decision diagram (BDD) engine:

* the 128-bit packed node encoding and the standalone `Bdd` container of
  `src/v2/mod.rs` (`BddNode`, `Bdd`, constructors, `sort_preorder`);
* the compact `u32` apply engine of
  `src/v2/_impl_/bdd/binary_operations/u32/mod.rs` (the `apply_u32!` loop and
  the eight terminal-predicate pairs);
* the `perf_testing` variant of the container (`PackedBddNode`, `Bdd`,
  `sort_preorder`, `TryFrom<&str>`) of `src/perf_testing.rs`.

Machine integers are modelled as `Nat`, with explicit `% 2 ^ 64`
(resp. masks) exactly where the source's fixed-width arithmetic can
truncate.  Fallible operations return `Option` (or a small outcome type);
the undefined behaviour of an out-of-bounds `get_unchecked` access is
modelled as an error outcome, and a Rust `panic!`/failed `assert!`/
`unwrap` is modelled as a distinct error outcome where a claim needs to
distinguish it.

The helper modules `coupled_dfs_stack.rs`, `partial_task_cache.rs`,
`partial_node_cache.rs` and `pointer_pair.rs` are part of the repository
but their sources are not available here; their behaviour is modelled from
the specification (§4.3, §4.4, §4.5 and §9), as noted in the doc comments
of the corresponding definitions.
-/

namespace Ruddy

/-! ## The v2 node encoding (`src/v2/mod.rs`, component C1)

`BddNode(u64, u64)` packs `variable` into the top 16 bits of the first
word together with `low` in its bottom 48 bits; `high` is the second word. -/
/-- `BddNode::VARIABLE_MASK`: bits set where the variable is stored. -/
def VARIABLE_MASK : Nat := (2 ^ 16 - 1) <<< 48

/-- `BddNode::ID_MASK = !VARIABLE_MASK` (bitwise not on `u64`). -/
def ID_MASK : Nat := (2 ^ 64 - 1) ^^^ VARIABLE_MASK

/-- A packed BDD node: the two `u64` words of `BddNode(u64, u64)`. -/
structure BddNode where
  w0 : Nat
  w1 : Nat
deriving DecidableEq

namespace BddNode

/-- `BddNode::ZERO = BddNode(VARIABLE_MASK, 0)`. -/
def ZERO : BddNode := ⟨VARIABLE_MASK, 0⟩

/-- `BddNode::ONE = BddNode(VARIABLE_MASK | 1, 1)`. -/
def ONE : BddNode := ⟨VARIABLE_MASK ||| 1, 1⟩

/-- The variable projection of `unpack` / `Bdd::get_variable`:
`(x.shr(48)) as u16`. -/
def unpackVar (n : BddNode) : Nat := (n.w0 >>> 48) % 2 ^ 16

/-- `BddNode::low_link`: `x & ID_MASK`. -/
def lowLink (n : BddNode) : Nat := n.w0 &&& ID_MASK

/-- `BddNode::high_link`: the second word. -/
def highLink (n : BddNode) : Nat := n.w1

/-- `BddNode::unpack`. -/
def unpack (n : BddNode) : Nat × Nat × Nat := (n.unpackVar, n.lowLink, n.highLink)

/-- `BddNode::pack(variable, low, high)`: `x = (variable as u64) << 48 | low`.
`variable` is a `u16` and `low` a `u64` in the source, so the shift cannot
truncate. -/
def pack (v low high : Nat) : BddNode := ⟨(v <<< 48) ||| low, high⟩

end BddNode

/-! ## The v2 `Bdd` container (`src/v2/mod.rs`, component C2) -/
/-- The standalone `Bdd`: a cached `variable_count` (a `u16`) and the node
array. -/
structure Bdd where
  variable_count : Nat
  nodes : List BddNode
deriving DecidableEq

namespace Bdd

/-- `Bdd::node_count`. -/
def node_count (B : Bdd) : Nat := B.nodes.length

/-- `Bdd::root_node`: `NodeId(len - 1)`. -/
def root_node (B : Bdd) : Nat := B.nodes.length - 1

/-- `Bdd::new_false`. -/
def new_false : Bdd := ⟨0, [BddNode.ZERO]⟩

/-- The node array of `Bdd::true_with_capacity` (capacity is a performance
hint with no functional content). -/
def new_true : Bdd := ⟨0, [BddNode.ZERO, BddNode.ONE]⟩

/-- `Bdd::new_variable(v)`. -/
def new_variable (v : Nat) : Bdd :=
  ⟨v + 1, [BddNode.ZERO, BddNode.ONE, BddNode.pack v 0 1]⟩

/-- `Bdd::update_variable_count`. -/
def update_variable_count (B : Bdd) (vars : Nat) : Bdd :=
  ⟨max B.variable_count vars, B.nodes⟩

/-- `Bdd::get_node_unchecked` (out-of-bounds access yields `none`,
modelling the undefined behaviour of the unchecked access). -/
def get_node? (B : Bdd) (id : Nat) : Option BddNode := B.nodes[id]?

/-- `Bdd::get_variable` (unchecked access, same convention). -/
def get_variable? (B : Bdd) (id : Nat) : Option Nat :=
  (B.nodes[id]?).map BddNode.unpackVar

/-- Total variable projection used to state invariants: the variable field
of node `i`, with the (never hit in a well-formed run) default `ZERO`. -/
def bvar (B : Bdd) (i : Nat) : Nat := (B.nodes.getD i BddNode.ZERO).unpackVar

/-- Evaluation of the Boolean function of a node under an assignment,
with explicit fuel (node `0` is the false terminal and node `1` the true
terminal, per the terminal convention of the data model). -/
def evalNode (B : Bdd) (a : Nat → Bool) : Nat → Nat → Bool
  | 0, _ => false
  | fuel + 1, i =>
    if i = 0 then false
    else if i = 1 then true
    else
      match B.nodes[i]? with
      | none => false
      | some n => if a n.unpackVar then evalNode B a fuel n.highLink
                  else evalNode B a fuel n.lowLink

/-- Evaluation of the Boolean function represented by a `Bdd` from its
root. -/
def eval (B : Bdd) (a : Nat → Bool) : Bool :=
  evalNode B a B.node_count B.root_node

end Bdd

/-! ## The compact apply engine
(`src/v2/_impl_/bdd/binary_operations/u32/mod.rs`, component C5)

The `apply_u32!` macro drives an explicit coupled-DFS stack over the two
input BDDs.  The stack (`coupled_dfs_stack.rs`), the task cache
(`partial_task_cache.rs`) and the node cache (`partial_node_cache.rs`) are
modelled from the specification because their source modules are not
available here. -/
/-- `MAX_LEFT_SIZE = u32::MAX as u64`. -/
def MAX_LEFT_SIZE : Nat := 2 ^ 32 - 1

/-- `MAX_RIGHT_SIZE = MAX_LEFT_SIZE ^ (1 << 31)` (xor clears bit 31). -/
def MAX_RIGHT_SIZE : Nat := MAX_LEFT_SIZE ^^^ (1 <<< 31)

/-- The precondition assertions at the top of `_u32_apply` / `apply_u32!`:
`left.node_count() < MAX_LEFT_SIZE && right.node_count() < MAX_RIGHT_SIZE`. -/
def u32SizeAssertions (L R : Bdd) : Prop :=
  L.node_count < MAX_LEFT_SIZE ∧ R.node_count < MAX_RIGHT_SIZE

instance (L R : Bdd) : Decidable (u32SizeAssertions L R) := by
  unfold u32SizeAssertions; infer_instance

/-- Modelled from the spec: `PointerPair::pack` packs two 32-bit ids into a
64-bit word, the right id in the upper half; one bit of the right id
(bit 31 of `r`, bit 63 of the word) is reserved to distinguish in-flight
tasks from completed results (§4.4, §9). -/
def PointerPair.pairPack (l r : Nat) : Nat := l ||| (r <<< 32)

/-- Modelled from the spec: the left component of a packed pointer pair. -/
def PointerPair.pairLeft (w : Nat) : Nat := w &&& (2 ^ 32 - 1)

/-- Modelled from the spec: the right component of a packed pointer pair. -/
def PointerPair.pairRight (w : Nat) : Nat := (w >>> 32) % 2 ^ 32

/-- Modelled from the spec: the reserved result flag of a stack entry is the
top bit of the 64-bit word (§9: one bit of the right-hand id is reserved). -/
def PointerPair.isResultWord (w : Nat) : Bool := w.testBit 63

/-- A stack entry of the coupled-DFS stack: an in-flight task (a pointer
pair) or a completed result id.  Modelled from the spec (§4.5): the
concrete stack stores both in one 64-bit word, with a reserved flag bit
telling them apart. -/
inductive Entry where
  | task (l r : Nat)
  | result (v : Nat)
deriving DecidableEq

/-- Modelled from the spec: `Stack::save_result_unchecked`.  The top entry
is the task being completed; it is replaced by the result.  If the entry
below is a pending task the two entries are swapped (the code comments:
"When completed, the order of tasks will be swapped (high on top)"), so
that the pending task is processed next; the function returns `true`
exactly when the top two entries are now both results, i.e. the task below
them is ready to reduce. -/
def saveResult (v : Nat) : List Entry → Option (Bool × List Entry)
  | .task _ _ :: rest =>
    match rest with
    | .task l r :: rest' => some (false, .task l r :: .result v :: rest')
    | .result w :: rest' => some (true, .result v :: .result w :: rest')
    | [] => some (false, [.result v])
  | _ => none

/-- Modelled from the spec: `Stack::pop_results_unchecked`, returning
`(low, high)`; the high result is on top, the low result below it. -/
def popResults : List Entry → Option ((Nat × Nat) × List Entry)
  | .result hi :: .result lo :: rest => some ((lo, hi), rest)
  | _ => none

/-- Modelled from the spec: `Stack::peek_as_task_unchecked`. -/
def peekTask : List Entry → Option (Nat × Nat)
  | .task l r :: _ => some (l, r)
  | _ => none

/-- Modelled from the spec: `Stack::has_result`. -/
def hasResult : List Entry → Bool
  | .result _ :: _ => true
  | _ => false

/-- Modelled from the spec: the task cache (`partial_task_cache.rs`) is a
table keyed by a pointer pair, here an exact association list (the spec
allows an inexact table; exactness is the reference behaviour of §4.4:
"read(key) → result_or_undefined", "write(key, result)" overwrites). -/
abbrev TaskCache := List ((Nat × Nat) × Nat)

/-- Modelled from the spec: `TaskCache::read`; `none` is `UNDEFINED`. -/
def tcRead (tc : TaskCache) (k : Nat × Nat) : Option Nat :=
  (tc.find? (fun e => e.1 == k)).map (·.2)

/-- Modelled from the spec: `TaskCache::write`. -/
def tcWrite (tc : TaskCache) (k : Nat × Nat) (v : Nat) : TaskCache :=
  (k, v) :: tc

/-- Modelled from the spec (§4.3): the node cache's growing node array *is*
the output node sequence (§9, "Coalescing the node cache with the output
buffer"); terminals occupy indices 0 and 1 and are never inserted into the
table, so the dedup search covers indices `≥ 2`.  `findNodeAux n l i`
returns the index (offset by `i`) of the first occurrence of `n` in `l`. -/
def findNodeAux (n : BddNode) : List BddNode → Nat → Option Nat
  | [], _ => none
  | m :: rest, i => if m = n then some i else findNodeAux n rest (i + 1)

/-- Modelled from the spec (§4.3): `NodeCache::ensure(node)`: if the node is
already present return its id, otherwise append it and return the new id. -/
def ensure (cache : List BddNode) (n : BddNode) : Nat × List BddNode :=
  match findNodeAux n (cache.drop 2) 2 with
  | some j => (j, cache)
  | none => (cache.length, cache ++ [n])

/-- The state of one `apply_u32!` run: the `is_not_false` flag, the node
cache (which doubles as the output node array, seeded with the two
terminals), the task cache, and the coupled-DFS stack (head = top). -/
structure ApplyState where
  isNotFalse : Bool
  cache : List BddNode
  tc : TaskCache
  stack : List Entry
deriving DecidableEq

/-- The "finish current top task" block of `apply_u32!` (the reduce step):
pop two results, peek the task under them; if the two results coincide the
task's result is that id, otherwise pack `(min of the two variables, low,
high)` and canonicalize it through the node cache; in both cases memoize
through the task cache and save the result on the stack. -/
def reduceStep (L R : Bdd) (st : ApplyState) : Option ApplyState :=
  match popResults st.stack with
  | none => none
  | some ((low, high), rest) =>
    match peekTask rest with
    | none => none
    | some (l, r) =>
      if high = low then
        match saveResult low rest with
        | none => none
        | some (_, stack') =>
          some ⟨st.isNotFalse, st.cache, tcWrite st.tc (l, r) low, stack'⟩
      else
        match L.get_variable? l, R.get_variable? r with
        | some lv, some rv =>
          match saveResult (ensure st.cache (BddNode.pack (min lv rv) low high)).1 rest with
          | none => none
          | some (_, stack') =>
            some ⟨st.isNotFalse,
              (ensure st.cache (BddNode.pack (min lv rv) low high)).2,
              tcWrite st.tc (l, r)
                (ensure st.cache (BddNode.pack (min lv rv) low high)).1,
              stack'⟩
        | _, _ => none

/-- One iteration of the `apply_u32!` loop, parameterized by the
`(is_zero, is_one)` terminal-predicate pair of the operation: if the top of
the stack is a result, reduce; otherwise expand the top task (terminal
rules, then the task cache, then pushing the two cofactor tasks, high
first, low on top), reducing in the same iteration when the expansion
completes the task below. -/
def stepBody (zero one : Nat → Nat → Bool) (L R : Bdd) (st : ApplyState) :
    Option ApplyState :=
  if hasResult st.stack then reduceStep L R st
  else
    match peekTask st.stack with
    | none => none
    | some (l, r) =>
      if zero l r then
        match saveResult 0 st.stack with
        | none => none
        | some (finish, stack') =>
          if finish then reduceStep L R ⟨st.isNotFalse, st.cache, st.tc, stack'⟩
          else some ⟨st.isNotFalse, st.cache, st.tc, stack'⟩
      else if one l r then
        match saveResult 1 st.stack with
        | none => none
        | some (finish, stack') =>
          if finish then reduceStep L R ⟨true, st.cache, st.tc, stack'⟩
          else some ⟨true, st.cache, st.tc, stack'⟩
      else
        match tcRead st.tc (l, r) with
        | some v =>
          match saveResult v st.stack with
          | none => none
          | some (finish, stack') =>
            if finish then reduceStep L R ⟨st.isNotFalse, st.cache, st.tc, stack'⟩
            else some ⟨st.isNotFalse, st.cache, st.tc, stack'⟩
        | none =>
          match L.get_node? l, R.get_node? r with
          | some ln, some rn =>
            some ⟨st.isNotFalse, st.cache, st.tc,
              .task
                (if min ln.unpackVar rn.unpackVar = ln.unpackVar then ln.lowLink else l)
                (if min ln.unpackVar rn.unpackVar = rn.unpackVar then rn.lowLink else r) ::
              .task
                (if min ln.unpackVar rn.unpackVar = ln.unpackVar then ln.highLink else l)
                (if min ln.unpackVar rn.unpackVar = rn.unpackVar then rn.highLink else r) ::
              st.stack⟩
          | _, _ => none

/-- The `apply_u32!` main loop (`loop { ... }`), with explicit fuel: run
iterations until exactly one entry — the result of the first task —
remains on the stack. -/
def applyLoop (zero one : Nat → Nat → Bool) (L R : Bdd) :
    Nat → ApplyState → Option ApplyState
  | 0, _ => none
  | fuel + 1, st =>
    match stepBody zero one L R st with
    | none => none
    | some st' =>
      if st'.stack.length = 1 then some st' else applyLoop zero one L R fuel st'

/-- The initial state of `apply_u32!`: the two terminals in the node cache,
an empty task cache, and the pair of roots as the only stack entry. -/
def initState (L R : Bdd) : ApplyState :=
  ⟨false, [BddNode.ZERO, BddNode.ONE], [], [.task L.root_node R.root_node]⟩

/-- `apply_u32!` produced output: if `is_not_false` was never set the
result is the constant-false BDD, otherwise the node cache is exported and
its variable count updated to `max` of the inputs'. -/
def applyU32 (zero one : Nat → Nat → Bool) (L R : Bdd) (fuel : Nat) :
    Option Bdd :=
  match applyLoop zero one L R fuel (initState L R) with
  | none => none
  | some stF =>
    if stF.isNotFalse then
      some (Bdd.update_variable_count ⟨0, stF.cache⟩
        (max L.variable_count R.variable_count))
    else
      some Bdd.new_false

/-! ### The eight operations and their terminal-predicate pairs
(`impl Bdd` block of `u32/mod.rs`). -/
/-- `_u32_and` `is_zero`: `l.is_zero() || r.is_zero()`. -/
def andZero (l r : Nat) : Bool := l == 0 || r == 0

/-- `_u32_and` `is_one`: `l.is_one() && r.is_one()`. -/
def andOne (l r : Nat) : Bool := l == 1 && r == 1

/-- `_u32_or` `is_zero`. -/
def orZero (l r : Nat) : Bool := l == 0 && r == 0

/-- `_u32_or` `is_one`. -/
def orOne (l r : Nat) : Bool := l == 1 || r == 1

/-- `_u32_imp` `is_zero`. -/
def impZero (l r : Nat) : Bool := l == 1 && r == 0

/-- `_u32_imp` `is_one`. -/
def impOne (l r : Nat) : Bool := l == 0 || r == 1

/-- `_u32_inv_imp` `is_zero` (as written in the source:
`l.is_zero() || r.is_one()`). -/
def invImpZero (l r : Nat) : Bool := l == 0 || r == 1

/-- `_u32_inv_imp` `is_one` (as written in the source:
`l.is_one() && r.is_zero()`). -/
def invImpOne (l r : Nat) : Bool := l == 1 && r == 0

/-- `_u32_iff` `is_zero`. -/
def iffZero (l r : Nat) : Bool := (l == 1 && r == 0) || (l == 0 && r == 1)

/-- `_u32_iff` `is_one`. -/
def iffOne (l r : Nat) : Bool := (l == 0 && r == 0) || (l == 1 && r == 1)

/-- `_u32_xor` `is_zero`. -/
def xorZero (l r : Nat) : Bool := (l == 1 && r == 1) || (l == 0 && r == 0)

/-- `_u32_xor` `is_one`. -/
def xorOne (l r : Nat) : Bool := (l == 0 && r == 1) || (l == 1 && r == 0)

/-- `_u32_and_not` `is_zero`. -/
def andNotZero (l r : Nat) : Bool := l == 0 || r == 1

/-- `_u32_and_not` `is_one`. -/
def andNotOne (l r : Nat) : Bool := l == 1 && r == 0

/-- `_u32_not_and` `is_zero` (as written in the source:
`l.is_one() && r.is_zero()`). -/
def notAndZero (l r : Nat) : Bool := l == 1 && r == 0

/-- `_u32_not_and` `is_one` (as written in the source:
`l.is_zero() || r.is_one()`). -/
def notAndOne (l r : Nat) : Bool := l == 0 || r == 1

/-- `Bdd::_u32_and`. -/
def u32_and (L R : Bdd) (fuel : Nat) : Option Bdd := applyU32 andZero andOne L R fuel

/-- `Bdd::_u32_or`. -/
def u32_or (L R : Bdd) (fuel : Nat) : Option Bdd := applyU32 orZero orOne L R fuel

/-- `Bdd::_u32_imp`. -/
def u32_imp (L R : Bdd) (fuel : Nat) : Option Bdd := applyU32 impZero impOne L R fuel

/-- `Bdd::_u32_inv_imp`. -/
def u32_inv_imp (L R : Bdd) (fuel : Nat) : Option Bdd :=
  applyU32 invImpZero invImpOne L R fuel

/-- `Bdd::_u32_iff`. -/
def u32_iff (L R : Bdd) (fuel : Nat) : Option Bdd := applyU32 iffZero iffOne L R fuel

/-- `Bdd::_u32_xor`. -/
def u32_xor (L R : Bdd) (fuel : Nat) : Option Bdd := applyU32 xorZero xorOne L R fuel

/-- `Bdd::_u32_and_not`. -/
def u32_and_not (L R : Bdd) (fuel : Nat) : Option Bdd :=
  applyU32 andNotZero andNotOne L R fuel

/-- `Bdd::_u32_not_and`. -/
def u32_not_and (L R : Bdd) (fuel : Nat) : Option Bdd :=
  applyU32 notAndZero notAndOne L R fuel

/-- The Boolean table of inverse implication: `inv_imp(a, b) = b → a`. -/
def invImpBool (a b : Bool) : Bool := !b || a

/-- The Boolean table of `not_and`: `not_and(a, b) = ¬(a ∧ b)`. -/
def notAndBool (a b : Bool) : Bool := !(a && b)

/-! ### Invariants of the apply engine

The predicates used to prove the reducedness / orderedness / DAG-order
guarantees (§3, §8) of every BDD the apply loop produces. -/
/-- Variable field of node `i` of a node array (`ZERO` default for
out-of-range indices; never hit under the invariants). -/
def cvar (cache : List BddNode) (i : Nat) : Nat :=
  (cache.getD i BddNode.ZERO).unpackVar

/-- Low link of node `i` of a node array. -/
def clow (cache : List BddNode) (i : Nat) : Nat :=
  (cache.getD i BddNode.ZERO).lowLink

/-- High link of node `i` of a node array. -/
def chigh (cache : List BddNode) (i : Nat) : Nat :=
  (cache.getD i BddNode.ZERO).highLink

/-- The decision variable of a task `(l, r)`: the minimum of the two
variable fields (terminal nodes carry the all-ones sentinel, which is
larger than every proper variable). -/
def tau (L R : Bdd) (l r : Nat) : Nat := min (cvar L.nodes l) (cvar R.nodes r)

/-- The container invariants of the data model (§3) for an input BDD:
node 0 is the false terminal, node 1 (when present) the true terminal,
every non-terminal node has a proper (non-sentinel) variable, children at
strictly smaller indices, and children that are terminals or have strictly
greater variables. -/
def WFB (B : Bdd) : Prop :=
  B.nodes ≠ [] ∧
  B.nodes.getD 0 BddNode.ZERO = BddNode.ZERO ∧
  (1 < B.nodes.length → B.nodes.getD 1 BddNode.ZERO = BddNode.ONE) ∧
  ∀ j < B.nodes.length, 2 ≤ j →
    cvar B.nodes j < 2 ^ 16 - 1 ∧
    clow B.nodes j < j ∧
    chigh B.nodes j < j ∧
    (clow B.nodes j < 2 ∨ cvar B.nodes j < cvar B.nodes (clow B.nodes j)) ∧
    (chigh B.nodes j < 2 ∨ cvar B.nodes j < cvar B.nodes (chigh B.nodes j))

instance (B : Bdd) : Decidable (WFB B) := by
  unfold WFB; infer_instance

/-- Invariant of the node cache seen as the output node array: terminals
at 0 and 1, and every node at index `j ≥ 2` canonically packed with a
proper variable, distinct children at indices `< j`, ordered variables,
and no duplicate entries among the non-terminal nodes. -/
def CacheInv (cache : List BddNode) : Prop :=
  2 ≤ cache.length ∧
  cache.getD 0 BddNode.ZERO = BddNode.ZERO ∧
  cache.getD 1 BddNode.ZERO = BddNode.ONE ∧
  (∀ j < cache.length, 2 ≤ j →
    cvar cache j < 2 ^ 16 - 1 ∧
    clow cache j < j ∧
    chigh cache j < j ∧
    clow cache j ≠ chigh cache j ∧
    cache.getD j BddNode.ZERO =
      BddNode.pack (cvar cache j) (clow cache j) (chigh cache j) ∧
    (clow cache j < 2 ∨ cvar cache j < cvar cache (clow cache j)) ∧
    (chigh cache j < 2 ∨ cvar cache j < cvar cache (chigh cache j))) ∧
  (∀ k < cache.length, ∀ j < k, 2 ≤ j →
    cache.getD j BddNode.ZERO ≠ cache.getD k BddNode.ZERO)

instance (cache : List BddNode) : Decidable (CacheInv cache) := by
  unfold CacheInv; infer_instance

/-- A valid task: both ids address nodes of the respective input. -/
def TOk (L R : Bdd) (l r : Nat) : Prop :=
  l < L.node_count ∧ r < R.node_count

/-- A valid *expanded* task: additionally not a pair of terminals (pairs of
terminals are resolved by the terminal rules and never expanded). -/
def ETOk (L R : Bdd) (l r : Nat) : Prop :=
  TOk L R l r ∧ ¬ (l < 2 ∧ r < 2)

/-- A valid result for the task `(l, r)`: a terminal, or a cache node whose
variable is at least the task's decision variable. -/
def RGe (L R : Bdd) (cache : List BddNode) (v l r : Nat) : Prop :=
  v < 2 ∨ (2 ≤ v ∧ v < cache.length ∧ tau L R l r ≤ cvar cache v)

/-- A result lying strictly below the task `(l, r)` in the variable order:
a terminal, or a cache node with strictly greater variable; this is what a
result of any *child* task of `(l, r)` satisfies. -/
def RGt (L R : Bdd) (cache : List BddNode) (v l r : Nat) : Prop :=
  v < 2 ∨ (2 ≤ v ∧ v < cache.length ∧ tau L R l r < cvar cache v)

/-- Invariant of the task cache: every memoized result is valid for its
key. -/
def TCInv (L R : Bdd) (cache : List BddNode) (tc : TaskCache) : Prop :=
  ∀ e ∈ tc, RGe L R cache e.2 e.1.1 e.1.2

/-- Shape invariant of the coupled-DFS stack at the start of a loop
iteration (head = top): a lone root task, a pending pair of cofactor tasks
above their expanded parent, a pending high task above the low result,
two results ready to reduce, or the final result. -/
inductive SInv (L R : Bdd) (cache : List BddNode) : List Entry → Prop where
  | root (l r : Nat) :
      TOk L R l r → SInv L R cache [.task l r]
  | push {pl pr : Nat} {S : List Entry} (l₁ r₁ l₂ r₂ : Nat) :
      SInv L R cache (.task pl pr :: S) → ETOk L R pl pr →
      TOk L R l₁ r₁ → TOk L R l₂ r₂ →
      tau L R pl pr < tau L R l₁ r₁ → tau L R pl pr < tau L R l₂ r₂ →
      SInv L R cache (.task l₁ r₁ :: .task l₂ r₂ :: .task pl pr :: S)
  | half {pl pr : Nat} {S : List Entry} (l r v : Nat) :
      SInv L R cache (.task pl pr :: S) → ETOk L R pl pr →
      TOk L R l r → tau L R pl pr < tau L R l r →
      RGt L R cache v pl pr →
      SInv L R cache (.task l r :: .result v :: .task pl pr :: S)
  | two {pl pr : Nat} {S : List Entry} (a b : Nat) :
      SInv L R cache (.task pl pr :: S) → ETOk L R pl pr →
      RGt L R cache a pl pr → RGt L R cache b pl pr →
      SInv L R cache (.result a :: .result b :: .task pl pr :: S)
  | done (v : Nat) : SInv L R cache [.result v]

/-- The full loop invariant of one `apply_u32!` run. -/
def Inv (L R : Bdd) (st : ApplyState) : Prop :=
  CacheInv st.cache ∧ TCInv L R st.cache st.tc ∧ SInv L R st.cache st.stack

/-- The concrete output of `apply(and, variable(0), variable(1))`, used to
instantiate the apply-invariant theorems. -/
def andXYresult : Bdd :=
  ⟨2, [BddNode.ZERO, BddNode.ONE, BddNode.pack 1 0 1, BddNode.pack 0 0 2]⟩

/-! ## The `perf_testing` variant (`src/perf_testing.rs`)

A second packed-node encoding (`PackedBddNode`): the variable is a `u32`
whose low 16 bits go to the top of the first word and whose bits 16..31 go
to the top of the second word; links are 48-bit.  The container carries a
`height` estimate instead of a variable count. -/

namespace Pf

/-- `PackedBddNode::VARIABLE_MASK`. -/
def PMASK : Nat := (2 ^ 16 - 1) <<< 48

/-- `PackedBddNode::ADDRESS_MASK = (1 << 48) - 1`. -/
def ADDRESS_MASK : Nat := 2 ^ 48 - 1

/-- `NodeId::UNDEFINED = (1 << 48) - 1`. -/
def UNDEF : Nat := 2 ^ 48 - 1

/-- `PackedBddNode(u64, u64)`. -/
structure PNode where
  w0 : Nat
  w1 : Nat
deriving DecidableEq

/-- `PackedBddNode::ZERO = (VARIABLE_MASK, VARIABLE_MASK)`. -/
def PZERO : PNode := ⟨PMASK, PMASK⟩

/-- `PackedBddNode::ONE = (VARIABLE_MASK + 1, VARIABLE_MASK + 1)`. -/
def PONE : PNode := ⟨PMASK + 1, PMASK + 1⟩

/-- `PackedBddNode::pack(variable, low, high)`:
`packed_low = low | (variable << 48)`,
`packed_high = high | ((variable << 32) & VARIABLE_MASK)`, both in `u64`
arithmetic (the first shift can truncate a `u32` variable). -/
def ppack (v low high : Nat) : PNode :=
  ⟨low ||| ((v <<< 48) % 2 ^ 64), high ||| (((v <<< 32) % 2 ^ 64) &&& PMASK)⟩

/-- `PackedBddNode::get_variable` / the variable component of `unpack`:
`((w0 >> 48) | ((w0 & VARIABLE_MASK) >> 32)) as u32` — note that the
second disjunct reads the *first* word again, as in the source. -/
def pVar (n : PNode) : Nat :=
  ((n.w0 >>> 48) ||| ((n.w0 &&& PMASK) >>> 32)) % 2 ^ 32

/-- `PackedBddNode::get_low_link`. -/
def pLow (n : PNode) : Nat := n.w0 &&& ADDRESS_MASK

/-- `PackedBddNode::get_high_link`. -/
def pHigh (n : PNode) : Nat := n.w1 &&& ADDRESS_MASK

/-- The `perf_testing` `Bdd` container. -/
structure PBdd where
  height : Nat
  nodes : List PNode
deriving DecidableEq

/-- `Bdd::get_root_id`. -/
def rootId (B : PBdd) : Nat := B.nodes.length - 1

/-- `Bdd::from_raw_nodes` (the height estimate uses truncating `Nat`
subtraction where the source's `usize` subtraction would overflow). -/
def fromRawNodes (nodes : List PNode) : PBdd :=
  let height := if nodes.length ≤ 2 then 0
    else pVar (nodes.getD 2 PZERO) - pVar (nodes.getD (nodes.length - 1) PZERO)
  ⟨height, nodes⟩

/-- The DFS loop of the `perf_testing` `Bdd::sort_preorder`: pop a task,
look its slot up in the id map (unchecked access modelled as `none` when
out of bounds); on first visit assign the next descending free id and push
the high then the low link (low on top). -/
def dfsLoop (B : PBdd) : Nat → List Nat → List Nat → Nat →
    Option (List Nat × Nat)
  | 0, _, _, _ => none
  | fuel + 1, stack, idMap, nextFree =>
    match stack with
    | [] => some (idMap, nextFree)
    | task :: stack' =>
      match idMap[task]? with
      | none => none
      | some tid =>
        if tid = UNDEF then
          match B.nodes[task]? with
          | none => none
          | some node =>
            dfsLoop B fuel (pLow node :: pHigh node :: stack')
              (idMap.set task nextFree) (nextFree - 1)
        else dfsLoop B fuel stack' idMap nextFree

/-- The body of `Bdd::copy_shuffled`: for every `old ≥ 2`, write the
renumbered node at its new position (an unchecked write; out of bounds is
modelled as `none`).  The `for` loop over `shuffle.iter().enumerate().skip(2)`
is embedded with an explicit countdown `rem` of remaining iterations
(`rem + old = shuffle.length` at the call site).  Slots of the
uninitialized target vector are modelled with a `PZERO` placeholder; in a
successful sort every slot is written. -/
def copyLoop (B : PBdd) (shuffle : List Nat) :
    Nat → Nat → List PNode → Option (List PNode)
  | 0, _, acc => some acc
  | rem + 1, old, acc =>
    match shuffle[old]?, B.nodes[old]? with
    | some ni, some node =>
      match shuffle[pLow node]?, shuffle[pHigh node]? with
      | some nlo, some nhi =>
        if ni < acc.length then
          copyLoop B shuffle rem (old + 1)
            (acc.set ni (ppack (pVar node) nlo nhi))
        else none
      | _, _ => none
    | _, _ => none

/-- `Bdd::copy_shuffled`: terminals at slots 0 and 1, the rest through the
shuffle permutation; the height is inherited. -/
def copyShuffled (B : PBdd) (shuffle : List Nat) : Option PBdd :=
  let base := [PZERO, PONE] ++ List.replicate (B.nodes.length - 2) PZERO
  match copyLoop B shuffle (shuffle.length - 2) 2 base with
  | none => none
  | some nodes' => some ⟨B.height, nodes'⟩

/-- `Bdd::sort_preorder` of `src/perf_testing.rs`: trivial BDDs are
returned unchanged; otherwise run the DFS renumbering, check the
`assert_eq!(next_free_id, 1)` (a failure, like any fault, yields `none`)
and copy through the permutation. -/
def sortPreorderPf (B : PBdd) (fuel : Nat) : Option PBdd :=
  if B.nodes.length ≤ 2 then some B
  else
    let idMap := ((List.replicate B.nodes.length UNDEF).set 0 0).set 1 1
    match dfsLoop B fuel [rootId B] idMap (B.nodes.length - 1) with
    | none => none
    | some (idMapF, nextFree) =>
      if nextFree = 1 then copyShuffled B idMapF else none

end Pf

/-! ## The textual-format parsers

`impl TryFrom<&str> for Bdd` exists both in `src/v2/mod.rs` (which keeps
the parsed records as they are and reads `variable_count` from record 0)
and in `src/perf_testing.rs` (which overwrites records 0 and 1 with the
canonical terminals).  Strings are modelled as `List Char`; both
implementations panic (`panic`) when the record list is empty. -/
/-- The outcome of a `TryFrom<&str>` call: `ok`, a returned parse error
(`err`; the error messages carry no information any claim needs), or a
panic (`panic`) — an `unwrap`/index on the empty node list. -/
inductive ParseOutcome (α : Type) where
  | ok (b : α)
  | err
  | panic
deriving DecidableEq

/-- Rust `str::split(sep)` on a character: `n` separators yield `n + 1`
pieces; the empty string yields one empty piece. -/
def splitOnChar (c : Char) : List Char → List (List Char)
  | [] => [[]]
  | a :: rest =>
    match splitOnChar c rest with
    | h :: t => if a = c then [] :: h :: t else (a :: h) :: t
    | [] => [[a]]

/-- Decimal digit test of Rust's unsigned integer parsing. -/
def isDigitChar (c : Char) : Bool := '0' ≤ c && c ≤ '9'

/-- Accumulate the decimal value of a digit string (`none` on the first
non-digit). -/
def parseDigitsAux : Nat → List Char → Option Nat
  | acc, [] => some acc
  | acc, ch :: rest =>
    if isDigitChar ch then
      parseDigitsAux (acc * 10 + (ch.toNat - '0'.toNat)) rest
    else none

/-- Rust `str::parse::<uN>()`: an optional leading `'+'`, then a nonempty
digit string whose value fits in `width` bits (overflow is an error). -/
def parseUInt (width : Nat) (s : List Char) : Option Nat :=
  let s' := match s with
    | '+' :: rest => rest
    | _ => s
  match s' with
  | [] => none
  | _ => do
    let v ← parseDigitsAux 0 s'
    if v < 2 ^ width then some v else none

/-- One record of the v2 parser: exactly three comma-separated fields,
`variable` a `u16`, the two pointers `u64`, packed as parsed. -/
def parseNodeV2 (record : List Char) : Option BddNode :=
  match splitOnChar ',' record with
  | [v, l, h] => do
    let vv ← parseUInt 16 v
    let ll ← parseUInt 64 l
    let hh ← parseUInt 64 h
    some (BddNode.pack vv ll hh)
  | _ => none

/-- One record of the `perf_testing` parser: `variable` is a `u32`. -/
def parseNodePf (record : List Char) : Option Pf.PNode :=
  match splitOnChar ',' record with
  | [v, l, h] => do
    let vv ← parseUInt 32 v
    let ll ← parseUInt 64 l
    let hh ← parseUInt 64 h
    some (Pf.ppack vv ll hh)
  | _ => none

/-- Parse every record, stopping at the first failure (the source returns
the first `Err`). -/
def parseNodes {α : Type} (f : List Char → Option α) :
    List (List Char) → Option (List α)
  | [] => some []
  | r :: rest => do
    let n ← f r
    let ns ← parseNodes f rest
    some (n :: ns)

/-- `impl TryFrom<&str> for Bdd` of `src/v2/mod.rs`: split on `'|'`,
drop empty records, parse each record, then read `variable_count` from
record 0 (`nodes[0].unpack().0.0` — an out-of-bounds panic when there is
no record) and return the records *unchanged*. -/
def tryFromV2 (data : List Char) : ParseOutcome Bdd :=
  match parseNodes parseNodeV2 ((splitOnChar '|' data).filter (· ≠ [])) with
  | none => .err
  | some nodes =>
    match nodes with
    | [] => .panic
    | n0 :: _ => .ok ⟨n0.unpackVar, nodes⟩

/-- `impl TryFrom<&str> for Bdd` of `src/perf_testing.rs`: split, parse,
then overwrite node 0 with the canonical `ZERO` (`get_mut(0).unwrap()`
panics on an empty list) and, when more than one node is present, node 1
with the canonical `ONE`, and assemble through `from_raw_nodes`. -/
def tryFromPf (data : List Char) : ParseOutcome Pf.PBdd :=
  match parseNodes parseNodePf ((splitOnChar '|' data).filter (· ≠ [])) with
  | none => .err
  | some nodes =>
    match nodes with
    | [] => .panic
    | _ :: _ =>
      let nodes₁ := nodes.set 0 Pf.PZERO
      let nodes₂ := if 1 < nodes₁.length then nodes₁.set 1 Pf.PONE else nodes₁
      .ok (Pf.fromRawNodes nodes₂)

/-! ### Node-level lemmas for the `perf_testing` packing

Every node written by `copy_shuffled` has the canonical shape `cpn`: the
low 16 bits of the (mangled) variable sit in the top of *both* words.
`get_variable` reads only the first word, so repacking a canonical node
reproduces it bit for bit — the key fact behind the idempotence of
`sort_preorder`. -/

namespace Pf

/-- The canonical packed shape produced by `copy_shuffled`. -/
def cpn (t l h : Nat) : PNode := ⟨l ||| t <<< 48, h ||| t <<< 48⟩

end Pf

/-- A left operand of the largest size the claim C7 says is accepted:
`node_count = 2^32 - 1`. -/
def bigLeftBdd : Bdd := ⟨0, List.replicate (2 ^ 32 - 1) BddNode.ZERO⟩

/-! ## `Bdd::sort_preorder` of `src/v2/mod.rs`

The in-place pre-order sort with a fixed-size scratch stack of
`3 * variable_count` entries, all accesses unchecked.  Out-of-bounds
unchecked accesses are modelled as the error outcome `oob`; the
`assert_eq!(new_index, 1)` panic as `assertFail`. -/
/-- Error outcomes of the v2 `sort_preorder`. -/
inductive SortErr where
  | oob
  | assertFail
  | fuel
deriving DecidableEq

/-- A bounds-checked `set` modelling `*xs.get_unchecked_mut(i) = v`
(out of bounds is undefined behaviour, modelled as `none`). -/
def setChecked (xs : List Nat) (i v : Nat) : Option (List Nat) :=
  if i < xs.length then some (xs.set i v) else none

/-- The DFS loop of the v2 `sort_preorder`: `stack` is the fixed scratch
array, `idx` the `stack_index_after_last` cursor, `newId` the `old → new`
id map (`0` is its "unassigned" marker), `newIndex` the next descending
free id.  Returns the final id map and `new_index`. -/
def sortV2Loop (B : Bdd) :
    Nat → List Nat → Nat → List Nat → Nat →
    Except SortErr (List Nat × Nat)
  | 0, _, _, _, _ => .error .fuel
  | fuel + 1, stack, idx, newId, newIndex =>
    if idx = 0 then .ok (newId, newIndex)
    else
      match stack[idx - 1]? with
      | none => .error .oob
      | some top =>
        if top = 1 ∨ top = 0 then sortV2Loop B fuel stack (idx - 1) newId newIndex
        else
          match newId[top]? with
          | none => .error .oob
          | some cell =>
            if cell = 0 then
              match B.nodes[top]? with
              | none => .error .oob
              | some node =>
                match setChecked stack (idx - 1) node.highLink with
                | none => .error .oob
                | some stack₁ =>
                  match setChecked stack₁ idx node.lowLink with
                  | none => .error .oob
                  | some stack₂ =>
                    sortV2Loop B fuel stack₂ (idx + 1)
                      (newId.set top newIndex) (newIndex - 1)
            else sortV2Loop B fuel stack (idx - 1) newId newIndex

/-- The rebuild pass of the v2 `sort_preorder` (`for old_index in
2..new_id.len()`), writing each renumbered node through the permutation.
The slots of the `set_len`-extended uninitialized vector are modelled with
a `ZERO` placeholder; in a successful run every slot `≥ 2` is written. -/
def sortV2Rebuild (B : Bdd) (newId : List Nat) :
    Nat → List BddNode → Option (List BddNode)
  | old, acc =>
    if h : old < newId.length then do
      let node ← B.nodes[old]?
      let ni ← newId[old]?
      let nlo ← newId[node.lowLink]?
      let nhi ← newId[node.highLink]?
      let acc' ←
        if ni < acc.length then
          some (acc.set ni (BddNode.pack node.unpackVar nlo nhi))
        else none
      sortV2Rebuild B newId (old + 1) acc'
    else some acc
  termination_by old _ => newId.length - old

/-- `Bdd::sort_preorder` of `src/v2/mod.rs`: early return for fewer than 2
nodes, scratch stack of `3 * variable_count`, unchecked initial push of the
root at index 0, DFS loop, `assert_eq!(new_index, 1)`, rebuild. -/
def sortPreorderV2 (B : Bdd) (fuel : Nat) : Except SortErr Bdd :=
  if B.nodes.length < 2 then .ok B
  else
    let newId := ((List.replicate B.nodes.length 0).set 0 0).set 1 1
    let stack₀ := List.replicate (3 * B.variable_count) 0
    match setChecked stack₀ 0 B.root_node with
    | none => .error .oob
    | some stack =>
      match sortV2Loop B fuel stack 1 newId (B.nodes.length - 1) with
      | .error e => .error e
      | .ok (newId', newIndex) =>
        if newIndex = 1 then
          match sortV2Rebuild B newId' 2
              ([BddNode.ZERO, BddNode.ONE] ++
                List.replicate (B.nodes.length - 2) BddNode.ZERO) with
          | none => .error .oob
          | some nodes' => .ok ⟨B.variable_count, nodes'⟩
        else .error .assertFail

namespace Pf

/-- The number of assigned (`≠ UNDEFINED`) non-terminal cells of an id
map over index range `[0, len)`. -/
def acount (len : Nat) (m : List Nat) : Nat :=
  ((Finset.range len).filter (fun i => 2 ≤ i ∧ m.getD i UNDEF ≠ UNDEF)).card

/-- The invariant of the `sort_preorder` DFS loop state: terminals are
mapped to themselves, assigned non-terminal cells carry pairwise distinct
ids strictly between the free-id cursor and `len`, and the number of
assigned cells complements the cursor. -/
def DfsInv (len : Nat) (m : List Nat) (nf : Nat) : Prop :=
  m.length = len ∧
  m.getD 0 UNDEF = 0 ∧
  m.getD 1 UNDEF = 1 ∧
  (∀ i, 2 ≤ i → i < len → m.getD i UNDEF ≠ UNDEF →
    nf < m.getD i UNDEF ∧ m.getD i UNDEF < len) ∧
  (∀ i j, i < len → j < len → m.getD i UNDEF ≠ UNDEF →
    m.getD i UNDEF = m.getD j UNDEF → i = j) ∧
  nf < len ∧
  acount len m + nf = len - 1

end Pf

/-- The xor-of-two-variables BDD in the `perf_testing` encoding
(root `x0`-node 4 over the two `x1`-nodes 2 and 3). -/
def xorPBdd : Pf.PBdd :=
  ⟨1, [Pf.PZERO, Pf.PONE, Pf.ppack 1 0 1, Pf.ppack 1 1 0, Pf.ppack 0 2 3]⟩

/-- `xorPBdd` after `sort_preorder`: the two `x1`-nodes swap places and
every non-terminal is stored in canonical re-packed shape. -/
def xorPBddSorted : Pf.PBdd :=
  ⟨1, [Pf.PZERO, Pf.PONE, Pf.cpn 1 1 0, Pf.cpn 1 0 1, Pf.cpn 0 3 2]⟩

/-! ## Theorems -/

/-! ## Bit-manipulation kit

Small lemmas about `Nat` shifts, masks and disjoint `|||`, used to reason
about the packed 64-bit node words. -/
theorem lor_shiftLeft_shiftRight (v l k : Nat) (hl : l < 2 ^ k) :
    ((v <<< k) ||| l) >>> k = v := by
  apply Nat.eq_of_testBit_eq
  intro i
  simp only [Nat.testBit_shiftRight, Nat.testBit_or, Nat.testBit_shiftLeft]
  have hle : k ≤ k + i := Nat.le_add_right _ _
  have hbit : l.testBit (k + i) = false :=
    Nat.testBit_lt_two_pow (Nat.lt_of_lt_of_le hl (Nat.pow_le_pow_right (by omega) hle))
  simp [hbit, hle, Nat.add_sub_cancel_left]

theorem lor_shiftLeft_land (v l k : Nat) (hl : l < 2 ^ k) :
    ((v <<< k) ||| l) &&& (2 ^ k - 1) = l := by
  apply Nat.eq_of_testBit_eq
  intro i
  simp only [Nat.testBit_and, Nat.testBit_or, Nat.testBit_shiftLeft,
    Nat.testBit_two_pow_sub_one]
  by_cases hik : i < k
  · have : ¬ k ≤ i := by omega
    simp [this, hik]
  · have hbit : l.testBit i = false :=
      Nat.testBit_lt_two_pow (Nat.lt_of_lt_of_le hl (Nat.pow_le_pow_right (by omega) (by omega)))
    simp [hbit, hik]

theorem shiftLeft_mod_two_pow (v k w : Nat) (hkw : k ≤ w) :
    (v <<< k) % 2 ^ w = (v % 2 ^ (w - k)) <<< k := by
  apply Nat.eq_of_testBit_eq
  intro i
  simp only [Nat.testBit_mod_two_pow, Nat.testBit_shiftLeft]
  by_cases hik : k ≤ i
  · by_cases hiw : i < w
    · simp [hik, hiw, Nat.testBit_mod_two_pow]
      omega
    · simp [hik, hiw, Nat.testBit_mod_two_pow]
      omega
  · simp [hik]

theorem lor_lt_two_pow {a b k : Nat} (ha : a < 2 ^ k) (hb : b < 2 ^ k) :
    (a ||| b) < 2 ^ k :=
  Nat.or_lt_two_pow ha hb

theorem mod_two_pow_eq_of_lt {a k : Nat} (h : a < 2 ^ k) : a % 2 ^ k = a :=
  Nat.mod_eq_of_lt h

theorem shiftLeft_lt_two_pow {v k w : Nat} (h : v < 2 ^ (w - k)) (hkw : k ≤ w) :
    v <<< k < 2 ^ w := by
  rw [Nat.shiftLeft_eq]
  calc v * 2 ^ k < 2 ^ (w - k) * 2 ^ k := by
        exact Nat.mul_lt_mul_of_lt_of_le h (Nat.le_refl _) (Nat.two_pow_pos k)
    _ = 2 ^ w := by rw [← Nat.pow_add]; congr 1; omega

namespace BddNode

theorem ID_MASK_eq : ID_MASK = 2 ^ 48 - 1 := by decide

theorem unpackVar_pack (v low high : Nat) (hv : v < 2 ^ 16) (hl : low < 2 ^ 48) :
    (pack v low high).unpackVar = v := by
  unfold unpackVar pack
  simp only
  rw [lor_shiftLeft_shiftRight v low 48 hl]
  exact Nat.mod_eq_of_lt hv

theorem lowLink_pack (v low high : Nat) (hl : low < 2 ^ 48) :
    (pack v low high).lowLink = low := by
  unfold lowLink pack
  simp only [ID_MASK_eq]
  exact lor_shiftLeft_land v low 48 hl

theorem highLink_pack (v low high : Nat) : (pack v low high).highLink = high := rfl

theorem unpackVar_ZERO : ZERO.unpackVar = 2 ^ 16 - 1 := by decide

theorem unpackVar_ONE : ONE.unpackVar = 2 ^ 16 - 1 := by decide

theorem unpack_ZERO : ZERO.unpack = (2 ^ 16 - 1, 0, 0) := by decide

theorem unpack_ONE : ONE.unpack = (2 ^ 16 - 1, 1, 1) := by decide

end BddNode

/-! ### Lemmas about the node cache and the invariant predicates -/
theorem getD_drop {α : Type} (d : α) :
    ∀ (l : List α) (m k : Nat), (l.drop m).getD k d = l.getD (m + k) d := by
  intro l
  induction l with
  | nil => intro m k; simp
  | cons a t ih =>
    intro m k
    cases m with
    | zero => simp
    | succ m' =>
      rw [List.drop_succ_cons, ih m' k]
      have : m' + 1 + k = (m' + k) + 1 := by omega
      rw [this, List.getD_cons_succ]

theorem findNodeAux_some {n : BddNode} :
    ∀ {l : List BddNode} {i j : Nat}, findNodeAux n l i = some j →
      i ≤ j ∧ j - i < l.length ∧ l.getD (j - i) BddNode.ZERO = n := by
  intro l
  induction l with
  | nil => intro i j h; simp [findNodeAux] at h
  | cons m t ih =>
    intro i j h
    unfold findNodeAux at h
    by_cases hm : m = n
    · rw [if_pos hm] at h
      cases h
      subst hm
      simp
    · rw [if_neg hm] at h
      obtain ⟨h1, h2, h3⟩ := ih h
      refine ⟨by omega, by simp; omega, ?_⟩
      have hji : j - i = (j - (i + 1)) + 1 := by omega
      rw [hji, List.getD_cons_succ]
      exact h3

theorem findNodeAux_none {n : BddNode} :
    ∀ {l : List BddNode} {i : Nat}, findNodeAux n l i = none →
      ∀ k, k < l.length → l.getD k BddNode.ZERO ≠ n := by
  intro l
  induction l with
  | nil => intro i _ k hk; simp at hk
  | cons m t ih =>
    intro i h k hk
    unfold findNodeAux at h
    by_cases hm : m = n
    · rw [if_pos hm] at h; cases h
    · rw [if_neg hm] at h
      cases k with
      | zero => simpa using hm
      | succ k' =>
        rw [List.getD_cons_succ]
        exact ih h k' (by simpa using hk)

/-- Specification of `ensure`: either the node is found at an existing
index `≥ 2` and the cache is unchanged, or it is appended at index
`cache.length` and did not occur among the non-terminal entries. -/
theorem ensure_spec (cache : List BddNode) (n : BddNode) :
    ((ensure cache n).2 = cache ∧ 2 ≤ (ensure cache n).1 ∧
      (ensure cache n).1 < cache.length ∧
      cache.getD (ensure cache n).1 BddNode.ZERO = n) ∨
    ((ensure cache n).1 = cache.length ∧ (ensure cache n).2 = cache ++ [n] ∧
      ∀ j, 2 ≤ j → j < cache.length → cache.getD j BddNode.ZERO ≠ n) := by
  unfold ensure
  cases hf : findNodeAux n (cache.drop 2) 2 with
  | some j =>
    left
    dsimp only
    obtain ⟨h1, h2, h3⟩ := findNodeAux_some hf
    rw [getD_drop] at h3
    have hlen : j - 2 < cache.length - 2 := by
      simpa using h2
    refine ⟨rfl, h1, by omega, ?_⟩
    have : 2 + (j - 2) = j := by omega
    rw [this] at h3
    exact h3
  | none =>
    right
    dsimp only
    refine ⟨rfl, rfl, ?_⟩
    intro j h2j hj
    have := findNodeAux_none hf (j - 2) (by simp; omega)
    rw [getD_drop] at this
    have h22 : 2 + (j - 2) = j := by omega
    rw [h22] at this
    exact this

theorem cvar_def (cache : List BddNode) (i : Nat) :
    cvar cache i = (cache.getD i BddNode.ZERO).unpackVar := rfl

theorem cvar_append {cache ext : List BddNode} {j : Nat} (h : j < cache.length) :
    cvar (cache ++ ext) j = cvar cache j := by
  unfold cvar
  rw [List.getD_append _ _ _ _ h]

theorem clow_append {cache ext : List BddNode} {j : Nat} (h : j < cache.length) :
    clow (cache ++ ext) j = clow cache j := by
  unfold clow
  rw [List.getD_append _ _ _ _ h]

theorem chigh_append {cache ext : List BddNode} {j : Nat} (h : j < cache.length) :
    chigh (cache ++ ext) j = chigh cache j := by
  unfold chigh
  rw [List.getD_append _ _ _ _ h]

theorem RGe_mono {L R : Bdd} {cache ext : List BddNode} {v l r : Nat}
    (h : RGe L R cache v l r) : RGe L R (cache ++ ext) v l r := by
  unfold RGe at h ⊢
  rcases h with h | ⟨h1, h2, h3⟩
  · exact Or.inl h
  · exact Or.inr ⟨h1, by simp; omega, by rwa [cvar_append h2]⟩

theorem RGt_mono {L R : Bdd} {cache ext : List BddNode} {v l r : Nat}
    (h : RGt L R cache v l r) : RGt L R (cache ++ ext) v l r := by
  unfold RGt at h ⊢
  rcases h with h | ⟨h1, h2, h3⟩
  · exact Or.inl h
  · exact Or.inr ⟨h1, by simp; omega, by rwa [cvar_append h2]⟩

theorem RGt_toRGe {L R : Bdd} {cache : List BddNode} {v l r : Nat}
    (h : RGt L R cache v l r) : RGe L R cache v l r := by
  unfold RGt at h
  unfold RGe
  rcases h with h | ⟨h1, h2, h3⟩
  · exact Or.inl h
  · exact Or.inr ⟨h1, h2, Nat.le_of_lt h3⟩

theorem TCInv_mono {L R : Bdd} {cache ext : List BddNode} {tc : TaskCache}
    (h : TCInv L R cache tc) : TCInv L R (cache ++ ext) tc := by
  intro e he
  exact RGe_mono (h e he)

theorem SInv_mono {L R : Bdd} {cache ext : List BddNode} {S : List Entry}
    (h : SInv L R cache S) : SInv L R (cache ++ ext) S := by
  induction h with
  | root l r h => exact .root l r h
  | push l₁ r₁ l₂ r₂ hS hE hT₁ hT₂ ht₁ ht₂ ih =>
    exact .push l₁ r₁ l₂ r₂ ih hE hT₁ hT₂ ht₁ ht₂
  | half l r v hS hE hT ht hv ih => exact .half l r v ih hE hT ht (RGt_mono hv)
  | two a b hS hE ha hb ih => exact .two a b ih hE (RGt_mono ha) (RGt_mono hb)
  | done v => exact .done v

theorem cvar_terminal {B : Bdd} (hW : WFB B) {l : Nat} (hl : l < 2)
    (hlen : l < B.node_count) : cvar B.nodes l = 2 ^ 16 - 1 := by
  unfold cvar
  match l, hl with
  | 0, _ =>
    rw [hW.2.1]
    exact BddNode.unpackVar_ZERO
  | 1, _ =>
    rw [hW.2.2.1 hlen]
    exact BddNode.unpackVar_ONE

theorem sentinel_of_lt_two {B : Bdd} (hW : WFB B) {l : Nat}
    (hlen : l < B.node_count) :
    cvar B.nodes l < 2 ^ 16 - 1 → 2 ≤ l := by
  intro h
  by_contra hc
  rw [cvar_terminal hW (by omega) hlen] at h
  omega

theorem wfb_clause {B : Bdd} (hW : WFB B) {j : Nat} (hj : j < B.node_count)
    (h2 : 2 ≤ j) :
    cvar B.nodes j < 2 ^ 16 - 1 ∧
    clow B.nodes j < j ∧
    chigh B.nodes j < j ∧
    (clow B.nodes j < 2 ∨ cvar B.nodes j < cvar B.nodes (clow B.nodes j)) ∧
    (chigh B.nodes j < 2 ∨ cvar B.nodes j < cvar B.nodes (chigh B.nodes j)) :=
  hW.2.2.2 j hj h2

theorem tau_lt_sentinel {L R : Bdd} (hWL : WFB L) (hWR : WFB R) {l r : Nat}
    (hE : ETOk L R l r) : tau L R l r < 2 ^ 16 - 1 := by
  obtain ⟨⟨hl, hr⟩, hnt⟩ := hE
  unfold tau
  by_cases h2 : 2 ≤ l
  · exact Nat.lt_of_le_of_lt (Nat.min_le_left _ _) (wfb_clause hWL hl h2).1
  · have hr2 : 2 ≤ r := by omega
    exact Nat.lt_of_le_of_lt (Nat.min_le_right _ _) (wfb_clause hWR hr hr2).1

theorem get_variable?_eq {B : Bdd} {i : Nat} (h : i < B.node_count) :
    B.get_variable? i = some (cvar B.nodes i) := by
  unfold Bdd.get_variable? cvar
  have h' : i < B.nodes.length := h
  rw [List.getElem?_eq_getElem h', List.getD_eq_getElem _ _ h']
  rfl

theorem get_node?_eq {B : Bdd} {i : Nat} (h : i < B.node_count) :
    B.get_node? i = some (B.nodes.getD i BddNode.ZERO) := by
  unfold Bdd.get_node?
  have h' : i < B.nodes.length := h
  rw [List.getElem?_eq_getElem h', List.getD_eq_getElem _ _ h']

theorem CacheInv_append {cache : List BddNode} {v lo hi : Nat}
    (hC : CacheInv cache)
    (hlen48 : cache.length < 2 ^ 48)
    (hv : v < 2 ^ 16 - 1)
    (hlo : lo < cache.length) (hhi : hi < cache.length) (hne : lo ≠ hi)
    (hlov : lo < 2 ∨ v < cvar cache lo)
    (hhiv : hi < 2 ∨ v < cvar cache hi)
    (hnew : ∀ j, 2 ≤ j → j < cache.length →
      cache.getD j BddNode.ZERO ≠ BddNode.pack v lo hi) :
    CacheInv (cache ++ [BddNode.pack v lo hi]) := by
  obtain ⟨hlen2, h0, h1, hmain, hdup⟩ := hC
  have hgetnew : (cache ++ [BddNode.pack v lo hi]).getD cache.length BddNode.ZERO =
      BddNode.pack v lo hi := by
    rw [List.getD_append_right _ _ _ _ (Nat.le_refl _)]
    simp
  have hcv : cvar (cache ++ [BddNode.pack v lo hi]) cache.length = v := by
    unfold cvar
    rw [hgetnew]
    exact BddNode.unpackVar_pack v lo hi (by omega) (by omega)
  have hcl : clow (cache ++ [BddNode.pack v lo hi]) cache.length = lo := by
    unfold clow
    rw [hgetnew]
    exact BddNode.lowLink_pack v lo hi (by omega)
  have hch : chigh (cache ++ [BddNode.pack v lo hi]) cache.length = hi := by
    unfold chigh
    rw [hgetnew]
    rfl
  refine ⟨by simp; omega, ?_, ?_, ?_, ?_⟩
  · rw [List.getD_append _ _ _ _ (by omega)]; exact h0
  · rw [List.getD_append _ _ _ _ (by omega)]; exact h1
  · intro j hj h2j
    have hj' : j < cache.length + 1 := by simpa using hj
    by_cases hjold : j < cache.length
    · obtain ⟨c1, c2, c3, c4, c5, c6, c7⟩ := hmain j hjold h2j
      rw [cvar_append hjold, clow_append hjold, chigh_append hjold,
        List.getD_append _ _ _ _ hjold]
      refine ⟨c1, c2, c3, c4, c5, ?_, ?_⟩
      · rcases c6 with c6 | c6
        · exact Or.inl c6
        · exact Or.inr (by rwa [cvar_append (by omega)])
      · rcases c7 with c7 | c7
        · exact Or.inl c7
        · exact Or.inr (by rwa [cvar_append (by omega)])
    · have hjeq : j = cache.length := by omega
      subst hjeq
      rw [hcv, hcl, hch, hgetnew]
      refine ⟨hv, hlo, hhi, hne, rfl, ?_, ?_⟩
      · rcases hlov with hlov | hlov
        · exact Or.inl hlov
        · exact Or.inr (by rwa [cvar_append hlo])
      · rcases hhiv with hhiv | hhiv
        · exact Or.inl hhiv
        · exact Or.inr (by rwa [cvar_append hhi])
  · intro k hk j hj h2j
    have hk' : k < cache.length + 1 := by simpa using hk
    by_cases hkold : k < cache.length
    · rw [List.getD_append _ _ _ _ hkold, List.getD_append _ _ _ _ (by omega)]
      exact hdup k hkold j hj h2j
    · have hkeq : k = cache.length := by omega
      subst hkeq
      rw [hgetnew, List.getD_append _ _ _ _ (by omega)]
      exact hnew j h2j hj

theorem popResults_eq_some {S : List Entry} {lo hi : Nat} {rest : List Entry}
    (h : popResults S = some ((lo, hi), rest)) :
    S = .result hi :: .result lo :: rest := by
  cases S with
  | nil => simp [popResults] at h
  | cons e S' =>
    cases e with
    | task l r => simp [popResults] at h
    | result a =>
      cases S' with
      | nil => simp [popResults] at h
      | cons e₂ S'' =>
        cases e₂ with
        | task l r => simp [popResults] at h
        | result b =>
          simp only [popResults, Option.some_inj] at h
          have hb : b = lo := congrArg (fun p => p.1.1) h
          have ha : a = hi := congrArg (fun p => p.1.2) h
          have hs : S'' = rest := congrArg Prod.snd h
          rw [hb, ha, hs]

theorem SInv_head_task {L R : Bdd} {cache : List BddNode} {l r : Nat}
    {S : List Entry} (h : SInv L R cache (.task l r :: S)) : TOk L R l r := by
  cases h with
  | root _ _ hT => exact hT
  | push _ _ _ _ _ _ hT₁ _ _ _ => exact hT₁
  | half _ _ _ _ _ hT _ _ => exact hT

theorem RGe_strengthen {L R : Bdd} {cache : List BddNode} {v cl cr pl pr : Nat}
    (hv : RGe L R cache v cl cr) (hlt : tau L R pl pr < tau L R cl cr) :
    RGt L R cache v pl pr := by
  unfold RGe at hv
  unfold RGt
  rcases hv with hv | ⟨h1, h2, h3⟩
  · exact Or.inl hv
  · exact Or.inr ⟨h1, h2, by omega⟩

theorem saveResult_SInv {L R : Bdd} {cache : List BddNode} {cl cr v : Nat}
    {S : List Entry} {fin : Bool} {stack' : List Entry}
    (hS : SInv L R cache (.task cl cr :: S))
    (hv : RGe L R cache v cl cr)
    (h : saveResult v (.task cl cr :: S) = some (fin, stack')) :
    SInv L R cache stack' := by
  cases S with
  | nil =>
    simp only [saveResult, Option.some_inj] at h
    have hst : stack' = [.result v] := by
      have := congrArg Prod.snd h
      simpa using this.symm
    rw [hst]
    exact .done v
  | cons e S₂ =>
    cases e with
    | task l₂ r₂ =>
      simp only [saveResult, Option.some_inj] at h
      have hst : stack' = .task l₂ r₂ :: .result v :: S₂ := by
        have := congrArg Prod.snd h
        simpa using this.symm
      rw [hst]
      cases hS with
      | push _ _ _ _ hS' hE hT₁ hT₂ ht₁ ht₂ =>
        exact .half l₂ r₂ v hS' hE hT₂ ht₂ (RGe_strengthen hv ht₁)
    | result w =>
      simp only [saveResult, Option.some_inj] at h
      have hst : stack' = .result v :: .result w :: S₂ := by
        have := congrArg Prod.snd h
        simpa using this.symm
      rw [hst]
      cases hS with
      | half _ _ _ hS' hE hT ht hw =>
        exact .two v w hS' hE (RGe_strengthen hv ht) hw

theorem TCInv_write {L R : Bdd} {cache : List BddNode} {tc : TaskCache}
    (hT : TCInv L R cache tc) {k : Nat × Nat} {v : Nat}
    (hv : RGe L R cache v k.1 k.2) : TCInv L R cache (tcWrite tc k v) := by
  intro e he
  rcases List.mem_cons.mp he with he | he
  · rw [he]; exact hv
  · exact hT e he

theorem tcRead_RGe {L R : Bdd} {cache : List BddNode} {tc : TaskCache}
    (hT : TCInv L R cache tc) {l r v : Nat}
    (h : tcRead tc (l, r) = some v) : RGe L R cache v l r := by
  unfold tcRead at h
  cases hf : tc.find? (fun e => e.1 == (l, r)) with
  | none => rw [hf] at h; simp at h
  | some e =>
    rw [hf] at h
    simp at h
    have hmem := List.mem_of_find?_eq_some hf
    have hpred := List.find?_some hf
    have he1 : e.1 = (l, r) := by simpa using hpred
    have hr := hT e hmem
    rw [he1] at hr
    rw [← h]
    exact hr

theorem cvar_append_last (cache : List BddNode) (n : BddNode) :
    cvar (cache ++ [n]) cache.length = n.unpackVar := by
  unfold cvar
  rw [List.getD_append_right _ _ _ _ (Nat.le_refl _), Nat.sub_self]
  rfl

theorem reduceStep_Inv {L R : Bdd} {st st' : ApplyState}
    (hWL : WFB L) (hWR : WFB R)
    (hInv : Inv L R st)
    (hlen : st'.cache.length ≤ 2 ^ 48)
    (h : reduceStep L R st = some st') :
    Inv L R st' := by
  obtain ⟨hC, hTC, hS⟩ := hInv
  unfold reduceStep at h
  cases hpop : popResults st.stack with
  | none => rw [hpop] at h; exact absurd h (by simp)
  | some p =>
    obtain ⟨⟨low, high⟩, rest⟩ := p
    rw [hpop] at h
    have hshape := popResults_eq_some hpop
    rw [hshape] at hS
    cases hS with
    | @two pl pr S a b hS' hE ha hb =>
      dsimp only [peekTask] at h
      have hdv : tau L R pl pr < 2 ^ 16 - 1 := tau_lt_sentinel hWL hWR hE
      by_cases hhl : high = low
      · rw [if_pos hhl] at h
        cases hsave : saveResult low (.task pl pr :: S) with
        | none => rw [hsave] at h; exact absurd h (by simp)
        | some q =>
          obtain ⟨fin, stack'⟩ := q
          rw [hsave] at h
          cases h
          exact ⟨hC, TCInv_write hTC (RGt_toRGe hb),
            saveResult_SInv hS' (RGt_toRGe hb) hsave⟩
      · rw [if_neg hhl] at h
        obtain ⟨⟨hpl, hpr⟩, hnt⟩ := hE
        rw [get_variable?_eq hpl, get_variable?_eq hpr] at h
        dsimp only at h
        have htau : min (cvar L.nodes pl) (cvar R.nodes pr) = tau L R pl pr := rfl
        have h2len : 2 ≤ st.cache.length := hC.1
        rcases ensure_spec st.cache
            (BddNode.pack (min (cvar L.nodes pl) (cvar R.nodes pr)) low high) with
          ⟨he2, hge2, hlt, hfound⟩ | ⟨hid, hcache, hnotmem⟩
        · -- dedup hit: cache unchanged
          rw [he2] at h
          cases hsave : saveResult
              (ensure st.cache (BddNode.pack (min (cvar L.nodes pl) (cvar R.nodes pr)) low high)).1
              (.task pl pr :: S) with
          | none => rw [hsave] at h; exact absurd h (by simp)
          | some q =>
            obtain ⟨fin, stack'⟩ := q
            rw [hsave] at h
            cases h
            have hlen' : st.cache.length ≤ 2 ^ 48 := by
              simpa using hlen
            have hlow48 : low < 2 ^ 48 := by
              rcases hb with hb | ⟨hb1, hb2, hb3⟩
              · omega
              · omega
            have hcvid : cvar st.cache
                (ensure st.cache (BddNode.pack (min (cvar L.nodes pl) (cvar R.nodes pr)) low high)).1 =
                tau L R pl pr := by
              rw [cvar_def, hfound,
                BddNode.unpackVar_pack _ _ _ (by rw [htau]; omega) hlow48]
              exact htau
            have hid_ge : RGe L R st.cache
                (ensure st.cache (BddNode.pack (min (cvar L.nodes pl) (cvar R.nodes pr)) low high)).1
                pl pr := by
              unfold RGe
              exact Or.inr ⟨hge2, hlt, by rw [hcvid]⟩
            exact ⟨hC, TCInv_write hTC hid_ge, saveResult_SInv hS' hid_ge hsave⟩
        · -- new node appended
          rw [hcache] at h
          cases hsave : saveResult
              (ensure st.cache (BddNode.pack (min (cvar L.nodes pl) (cvar R.nodes pr)) low high)).1
              (.task pl pr :: S) with
          | none => rw [hsave] at h; exact absurd h (by simp)
          | some q =>
            obtain ⟨fin, stack'⟩ := q
            rw [hsave] at h
            cases h
            have hlen48 : st.cache.length < 2 ^ 48 := by
              have : st.cache.length + 1 ≤ 2 ^ 48 := by simpa using hlen
              omega
            have hlow : low < st.cache.length := by
              rcases hb with hb | ⟨hb1, hb2, hb3⟩
              · omega
              · exact hb2
            have hhigh : high < st.cache.length := by
              rcases ha with ha | ⟨ha1, ha2, ha3⟩
              · omega
              · exact ha2
            have hlov : low < 2 ∨
                min (cvar L.nodes pl) (cvar R.nodes pr) < cvar st.cache low := by
              rcases hb with hb | ⟨hb1, hb2, hb3⟩
              · exact Or.inl hb
              · exact Or.inr (by rw [htau]; exact hb3)
            have hhiv : high < 2 ∨
                min (cvar L.nodes pl) (cvar R.nodes pr) < cvar st.cache high := by
              rcases ha with ha | ⟨ha1, ha2, ha3⟩
              · exact Or.inl ha
              · exact Or.inr (by rw [htau]; exact ha3)
            have hC' := CacheInv_append hC hlen48 (by rw [htau]; exact hdv)
              hlow hhigh (fun hc => hhl hc.symm) hlov hhiv hnotmem
            have hcvid : cvar
                (st.cache ++ [BddNode.pack (min (cvar L.nodes pl) (cvar R.nodes pr)) low high])
                st.cache.length = tau L R pl pr := by
              rw [cvar_append_last,
                BddNode.unpackVar_pack _ _ _ (by rw [htau]; omega) (by omega)]
              exact htau
            have hid_ge : RGe L R
                (st.cache ++ [BddNode.pack (min (cvar L.nodes pl) (cvar R.nodes pr)) low high])
                (ensure st.cache (BddNode.pack (min (cvar L.nodes pl) (cvar R.nodes pr)) low high)).1
                pl pr := by
              unfold RGe
              right
              rw [hid]
              exact ⟨hC.1, by simp, by rw [hcvid]⟩
            refine ⟨hC', TCInv_write (TCInv_mono hTC) hid_ge, ?_⟩
            rw [hid] at hsave
            have hid_ge' := hid_ge
            rw [hid] at hid_ge'
            have hS'' : SInv L R
                (st.cache ++
                  [BddNode.pack (min (cvar L.nodes pl) (cvar R.nodes pr))
                    low high]) (.task pl pr :: S) := SInv_mono hS'
            exact saveResult_SInv hS'' hid_ge' hsave

theorem cofactor_side {B : Bdd} (hW : WFB B) {i dv : Nat}
    (hi : i < B.node_count) (hdv : dv < 2 ^ 16 - 1)
    (hmin : dv ≤ cvar B.nodes i) (x : Nat)
    (hx : x = (if dv = cvar B.nodes i then clow B.nodes i else i) ∨
          x = (if dv = cvar B.nodes i then chigh B.nodes i else i)) :
    x < B.node_count ∧ dv < cvar B.nodes x := by
  by_cases heq : dv = cvar B.nodes i
  · have h2i : 2 ≤ i := by
      by_contra hc
      rw [cvar_terminal hW (by omega) hi] at heq
      omega
    obtain ⟨c1, c2, c3, c4, c5⟩ := wfb_clause hW hi h2i
    simp only [if_pos heq] at hx
    rcases hx with hx | hx
    · subst hx
      refine ⟨by omega, ?_⟩
      rcases c4 with c4 | c4
      · rw [cvar_terminal hW c4 (by omega)]
        omega
      · omega
    · subst hx
      refine ⟨by omega, ?_⟩
      rcases c5 with c5 | c5
      · rw [cvar_terminal hW c5 (by omega)]
        omega
      · omega
  · simp only [if_neg heq] at hx
    have hxi : x = i := by rcases hx with hx | hx <;> exact hx
    subst hxi
    exact ⟨hi, by omega⟩

theorem saveBranch_Inv {L R : Bdd} {cache : List BddNode} {tc : TaskCache}
    {l r v : Nat} {S : List Entry} {b : Bool} {st' : ApplyState}
    (hWL : WFB L) (hWR : WFB R)
    (hC : CacheInv cache) (hTC : TCInv L R cache tc)
    (hS : SInv L R cache (.task l r :: S)) (hv : RGe L R cache v l r)
    (hlen : st'.cache.length ≤ 2 ^ 48)
    (h : (match saveResult v (.task l r :: S) with
          | none => none
          | some (finish, stack') =>
            if finish then reduceStep L R ⟨b, cache, tc, stack'⟩
            else some ⟨b, cache, tc, stack'⟩) = some st') :
    Inv L R st' := by
  cases hsave : saveResult v (.task l r :: S) with
  | none => rw [hsave] at h; exact absurd h (by simp)
  | some q =>
    obtain ⟨fin, stack'⟩ := q
    rw [hsave] at h
    have hS' := saveResult_SInv hS hv hsave
    cases fin with
    | false =>
      dsimp only at h
      cases h
      exact ⟨hC, hTC, hS'⟩
    | true =>
      dsimp only at h
      exact reduceStep_Inv hWL hWR ⟨hC, hTC, hS'⟩ hlen h

theorem stepBody_Inv {zero one : Nat → Nat → Bool} {L R : Bdd}
    {st st' : ApplyState}
    (hWL : WFB L) (hWR : WFB R)
    (htot : ∀ l < 2, ∀ r < 2, zero l r = true ∨ one l r = true)
    (hInv : Inv L R st)
    (hlen : st'.cache.length ≤ 2 ^ 48)
    (h : stepBody zero one L R st = some st') :
    Inv L R st' := by
  obtain ⟨hC, hTC, hS⟩ := hInv
  unfold stepBody at h
  by_cases hres : hasResult st.stack
  · rw [if_pos hres] at h
    exact reduceStep_Inv hWL hWR ⟨hC, hTC, hS⟩ hlen h
  · rw [if_neg hres] at h
    cases hpk : peekTask st.stack with
    | none => rw [hpk] at h; exact absurd h (by simp)
    | some p =>
      obtain ⟨l, r⟩ := p
      rw [hpk] at h
      dsimp only at h
      obtain ⟨S, hstS⟩ : ∃ S, st.stack = .task l r :: S := by
        cases hst : st.stack with
        | nil => rw [hst] at hpk; simp [peekTask] at hpk
        | cons e S' =>
          cases e with
          | task l' r' =>
            rw [hst] at hpk
            simp only [peekTask, Option.some_inj] at hpk
            have hl : l' = l := congrArg Prod.fst hpk
            have hr : r' = r := congrArg Prod.snd hpk
            exact ⟨S', by rw [hl, hr]⟩
          | result w => rw [hst] at hres; simp [hasResult] at hres
      rw [hstS] at hS h
      have hT : TOk L R l r := SInv_head_task hS
      by_cases hz : zero l r
      · rw [if_pos hz] at h
        exact saveBranch_Inv hWL hWR hC hTC hS (Or.inl (by omega)) hlen h
      · rw [if_neg hz] at h
        by_cases ho : one l r
        · rw [if_pos ho] at h
          exact saveBranch_Inv hWL hWR hC hTC hS (Or.inl (by omega)) hlen h
        · rw [if_neg ho] at h
          have hE : ETOk L R l r := by
            refine ⟨hT, ?_⟩
            rintro ⟨h1, h2⟩
            rcases htot l h1 r h2 with hh | hh
            · exact hz hh
            · exact ho hh
          cases htc : tcRead st.tc (l, r) with
          | some v =>
            rw [htc] at h
            exact saveBranch_Inv hWL hWR hC hTC hS (tcRead_RGe hTC htc) hlen h
          | none =>
            rw [htc] at h
            obtain ⟨hl, hr⟩ := hT
            rw [get_node?_eq hl, get_node?_eq hr] at h
            dsimp only at h
            cases h
            refine ⟨hC, hTC, ?_⟩
            have hdv : tau L R l r < 2 ^ 16 - 1 := tau_lt_sentinel hWL hWR hE
            have hminl : tau L R l r ≤ cvar L.nodes l := Nat.min_le_left _ _
            have hminr : tau L R l r ≤ cvar R.nodes r := Nat.min_le_right _ _
            have hLlo := cofactor_side hWL hl hdv hminl _ (Or.inl rfl)
            have hLhi := cofactor_side hWL hl hdv hminl _ (Or.inr rfl)
            have hRlo := cofactor_side hWR hr hdv hminr _ (Or.inl rfl)
            have hRhi := cofactor_side hWR hr hdv hminr _ (Or.inr rfl)
            refine SInv.push _ _ _ _ hS hE ⟨hLlo.1, hRlo.1⟩ ⟨hLhi.1, hRhi.1⟩
              (Nat.lt_min.mpr ⟨hLlo.2, hRlo.2⟩) (Nat.lt_min.mpr ⟨hLhi.2, hRhi.2⟩)

theorem ensure_length_le (cache : List BddNode) (n : BddNode) :
    cache.length ≤ (ensure cache n).2.length := by
  rcases ensure_spec cache n with ⟨h, _⟩ | ⟨_, h, _⟩ <;> simp [h]

theorem reduceStep_cache_mono {L R : Bdd} {st st' : ApplyState}
    (h : reduceStep L R st = some st') : st.cache.length ≤ st'.cache.length := by
  unfold reduceStep at h
  repeat' split at h
  all_goals first
    | exact Option.noConfusion h
    | (cases h; exact Nat.le_refl _)
    | (cases h; exact ensure_length_le ..)

theorem saveBranch_cache_mono {L R : Bdd} {cache : List BddNode}
    {tc : TaskCache} {v : Nat} {stk : List Entry} {b : Bool} {st' : ApplyState}
    (h : (match saveResult v stk with
          | none => none
          | some (finish, stack') =>
            if finish then reduceStep L R ⟨b, cache, tc, stack'⟩
            else some ⟨b, cache, tc, stack'⟩) = some st') :
    cache.length ≤ st'.cache.length := by
  cases hsave : saveResult v stk with
  | none => rw [hsave] at h; exact Option.noConfusion h
  | some q =>
    obtain ⟨fin, stack'⟩ := q
    rw [hsave] at h
    cases fin with
    | false =>
      dsimp only at h
      cases h
      exact Nat.le_refl _
    | true =>
      dsimp only at h
      exact reduceStep_cache_mono h

theorem stepBody_cache_mono {zero one : Nat → Nat → Bool} {L R : Bdd}
    {st st' : ApplyState} (h : stepBody zero one L R st = some st') :
    st.cache.length ≤ st'.cache.length := by
  unfold stepBody at h
  by_cases hres : hasResult st.stack
  · rw [if_pos hres] at h
    exact reduceStep_cache_mono h
  · rw [if_neg hres] at h
    cases hpk : peekTask st.stack with
    | none => rw [hpk] at h; exact Option.noConfusion h
    | some p =>
      obtain ⟨l, r⟩ := p
      rw [hpk] at h
      dsimp only at h
      by_cases hz : zero l r
      · rw [if_pos hz] at h
        exact saveBranch_cache_mono h
      · rw [if_neg hz] at h
        by_cases ho : one l r
        · rw [if_pos ho] at h
          exact saveBranch_cache_mono h
        · rw [if_neg ho] at h
          cases htc : tcRead st.tc (l, r) with
          | some v =>
            rw [htc] at h
            exact saveBranch_cache_mono h
          | none =>
            rw [htc] at h
            cases hL : L.get_node? l with
            | none => rw [hL] at h; exact Option.noConfusion h
            | some ln =>
              cases hR : R.get_node? r with
              | none => rw [hL, hR] at h; exact Option.noConfusion h
              | some rn =>
                rw [hL, hR] at h
                dsimp only at h
                cases h
                exact Nat.le_refl _

theorem applyLoop_cache_mono {zero one : Nat → Nat → Bool} {L R : Bdd} :
    ∀ {fuel : Nat} {st st' : ApplyState},
      applyLoop zero one L R fuel st = some st' →
      st.cache.length ≤ st'.cache.length := by
  intro fuel
  induction fuel with
  | zero => intro st st' h; simp [applyLoop] at h
  | succ n ih =>
    intro st st' h
    unfold applyLoop at h
    cases hstep : stepBody zero one L R st with
    | none => rw [hstep] at h; exact absurd h (by simp)
    | some st₁ =>
      rw [hstep] at h
      dsimp only at h
      by_cases hone : st₁.stack.length = 1
      · rw [if_pos hone] at h
        cases h
        exact stepBody_cache_mono hstep
      · rw [if_neg hone] at h
        exact Nat.le_trans (stepBody_cache_mono hstep) (ih h)

theorem applyLoop_Inv {zero one : Nat → Nat → Bool} {L R : Bdd}
    (hWL : WFB L) (hWR : WFB R)
    (htot : ∀ l < 2, ∀ r < 2, zero l r = true ∨ one l r = true) :
    ∀ {fuel : Nat} {st st' : ApplyState},
      applyLoop zero one L R fuel st = some st' →
      Inv L R st → st'.cache.length ≤ 2 ^ 48 → Inv L R st' := by
  intro fuel
  induction fuel with
  | zero => intro st st' h; simp [applyLoop] at h
  | succ n ih =>
    intro st st' h hInv hlen
    unfold applyLoop at h
    cases hstep : stepBody zero one L R st with
    | none => rw [hstep] at h; exact absurd h (by simp)
    | some st₁ =>
      rw [hstep] at h
      dsimp only at h
      by_cases hone : st₁.stack.length = 1
      · rw [if_pos hone] at h
        cases h
        exact stepBody_Inv hWL hWR htot hInv hlen hstep
      · rw [if_neg hone] at h
        have hmono := applyLoop_cache_mono h
        exact ih h (stepBody_Inv hWL hWR htot hInv (Nat.le_trans hmono hlen) hstep) hlen

theorem Inv_init {L R : Bdd} (hWL : WFB L) (hWR : WFB R) :
    Inv L R (initState L R) := by
  refine ⟨?_, ?_, ?_⟩
  · show CacheInv [BddNode.ZERO, BddNode.ONE]
    decide
  · intro e he
    simp [initState] at he
  · refine SInv.root _ _ ⟨?_, ?_⟩
    · have h1 : 1 ≤ L.nodes.length := by
        cases hn : L.nodes with
        | nil => exact absurd hn hWL.1
        | cons a t => simp
      unfold Bdd.root_node Bdd.node_count
      omega
    · have h1 : 1 ≤ R.nodes.length := by
        cases hn : R.nodes with
        | nil => exact absurd hn hWR.1
        | cons a t => simp
      unfold Bdd.root_node Bdd.node_count
      omega

/-- Every terminating `apply_u32!` run on well-formed inputs yields either
the constant-false BDD or a node array satisfying the cache invariant. -/
theorem applyU32_cases {zero one : Nat → Nat → Bool} {L R : Bdd} {fuel : Nat}
    {B : Bdd} (hWL : WFB L) (hWR : WFB R)
    (htot : ∀ l < 2, ∀ r < 2, zero l r = true ∨ one l r = true)
    (h : applyU32 zero one L R fuel = some B)
    (hsize : B.node_count ≤ 2 ^ 48) :
    B.nodes = [BddNode.ZERO] ∨ CacheInv B.nodes := by
  unfold applyU32 at h
  cases hloop : applyLoop zero one L R fuel (initState L R) with
  | none => rw [hloop] at h; exact absurd h (by simp)
  | some stF =>
    rw [hloop] at h
    dsimp only at h
    by_cases hnf : stF.isNotFalse = true
    · rw [if_pos hnf] at h
      cases h
      right
      exact (applyLoop_Inv hWL hWR htot hloop (Inv_init hWL hWR) hsize).1
    · rw [if_neg hnf] at h
      cases h
      left
      rfl

/-- Claim C2, amended: every BDD produced by apply (on well-formed inputs,
with terminal predicates that resolve every pair of terminals, within the
48-bit id range) has no *non-terminal* node with `low == high`, and no two
non-terminal nodes share the `(variable, low, high)` triple.  (The claim's
"no node has low == high" fails at the terminals, see the
counterexample.) -/
theorem c2_amended {zero one : Nat → Nat → Bool} {L R : Bdd} {fuel : Nat}
    {B : Bdd} (hWL : WFB L) (hWR : WFB R)
    (htot : ∀ l < 2, ∀ r < 2, zero l r = true ∨ one l r = true)
    (happly : applyU32 zero one L R fuel = some B)
    (hsize : B.node_count ≤ 2 ^ 48) :
    (∀ j, 2 ≤ j → j < B.node_count → clow B.nodes j ≠ chigh B.nodes j) ∧
    (∀ j k, 2 ≤ j → 2 ≤ k → j < B.node_count → k < B.node_count → j ≠ k →
      ¬(cvar B.nodes j = cvar B.nodes k ∧ clow B.nodes j = clow B.nodes k ∧
        chigh B.nodes j = chigh B.nodes k)) := by
  rcases applyU32_cases hWL hWR htot happly hsize with hf | hC
  · have hone : B.node_count = 1 := by
      unfold Bdd.node_count
      rw [hf]
      rfl
    exact ⟨fun j h2 hlt => by omega, fun j k h2j h2k hj hk hne => by omega⟩
  · obtain ⟨hlen2, h0, h1, hmain, hdup⟩ := hC
    constructor
    · intro j h2 hlt
      exact (hmain j hlt h2).2.2.2.1
    · rintro j k h2j h2k hj hk hne ⟨hv, hl, hh⟩
      have hgj := (hmain j hj h2j).2.2.2.2.1
      have hgk := (hmain k hk h2k).2.2.2.2.1
      have heq : B.nodes.getD j BddNode.ZERO = B.nodes.getD k BddNode.ZERO := by
        rw [hgj, hgk, hv, hl, hh]
      rcases Nat.lt_or_ge j k with hlt | hge
      · exact hdup k hk j hlt h2j heq
      · have hlt : k < j := by omega
        exact hdup j hj k hlt h2k heq.symm

/-- Claim C3: every BDD produced by apply is ordered — for every
non-terminal node, each child is a terminal or a node with strictly
greater variable. -/
theorem c3_ordered {zero one : Nat → Nat → Bool} {L R : Bdd} {fuel : Nat}
    {B : Bdd} (hWL : WFB L) (hWR : WFB R)
    (htot : ∀ l < 2, ∀ r < 2, zero l r = true ∨ one l r = true)
    (happly : applyU32 zero one L R fuel = some B)
    (hsize : B.node_count ≤ 2 ^ 48) :
    ∀ j, 2 ≤ j → j < B.node_count →
      (clow B.nodes j < 2 ∨ cvar B.nodes j < cvar B.nodes (clow B.nodes j)) ∧
      (chigh B.nodes j < 2 ∨ cvar B.nodes j < cvar B.nodes (chigh B.nodes j)) := by
  rcases applyU32_cases hWL hWR htot happly hsize with hf | hC
  · have hone : B.node_count = 1 := by
      unfold Bdd.node_count
      rw [hf]
      rfl
    exact fun j h2 hlt => by omega
  · intro j h2 hlt
    obtain ⟨hlen2, h0, h1, hmain, hdup⟩ := hC
    obtain ⟨c1, c2, c3, c4, c5, c6, c7⟩ := hmain j hlt h2
    exact ⟨c6, c7⟩

/-- Claim C4: every BDD produced by apply is in topological order — every
non-terminal node's children are at strictly smaller indices (node-cache
ids grow monotonically in reduction order) and the root is at index
`node_count - 1`. -/
theorem c4_dag_order {zero one : Nat → Nat → Bool} {L R : Bdd} {fuel : Nat}
    {B : Bdd} (hWL : WFB L) (hWR : WFB R)
    (htot : ∀ l < 2, ∀ r < 2, zero l r = true ∨ one l r = true)
    (happly : applyU32 zero one L R fuel = some B)
    (hsize : B.node_count ≤ 2 ^ 48) :
    (∀ j, 2 ≤ j → j < B.node_count →
      clow B.nodes j < j ∧ chigh B.nodes j < j) ∧
    B.root_node = B.node_count - 1 := by
  rcases applyU32_cases hWL hWR htot happly hsize with hf | hC
  · have hone : B.node_count = 1 := by
      unfold Bdd.node_count
      rw [hf]
      rfl
    exact ⟨fun j h2 hlt => by omega, rfl⟩
  · refine ⟨?_, rfl⟩
    intro j h2 hlt
    obtain ⟨hlen2, h0, h1, hmain, hdup⟩ := hC
    obtain ⟨c1, c2, c3, c4, c5, c6, c7⟩ := hmain j hlt h2
    exact ⟨c2, c3⟩

/-- Claim C2, witness for the amended theorem at
`apply(and, variable(0), variable(1))`. -/
theorem c2_amended_witness :
    (∀ j, 2 ≤ j → j < andXYresult.node_count →
      clow andXYresult.nodes j ≠ chigh andXYresult.nodes j) ∧
    (∀ j k, 2 ≤ j → 2 ≤ k → j < andXYresult.node_count →
      k < andXYresult.node_count → j ≠ k →
      ¬(cvar andXYresult.nodes j = cvar andXYresult.nodes k ∧
        clow andXYresult.nodes j = clow andXYresult.nodes k ∧
        chigh andXYresult.nodes j = chigh andXYresult.nodes k)) :=
  @c2_amended andZero andOne (Bdd.new_variable 0) (Bdd.new_variable 1) 32
    andXYresult (by decide) (by decide) (by decide) (by decide) (by decide)

/-- Claim C3, witness at `apply(and, variable(0), variable(1))`. -/
theorem c3_ordered_witness :
    2 ≤ 3 ∧ 3 < andXYresult.node_count ∧
    (clow andXYresult.nodes 3 < 2 ∨
      cvar andXYresult.nodes 3 < cvar andXYresult.nodes (clow andXYresult.nodes 3)) ∧
    (chigh andXYresult.nodes 3 < 2 ∨
      cvar andXYresult.nodes 3 < cvar andXYresult.nodes (chigh andXYresult.nodes 3)) :=
  ⟨by decide, by decide,
    @c3_ordered andZero andOne (Bdd.new_variable 0) (Bdd.new_variable 1) 32
      andXYresult (by decide) (by decide) (by decide) (by decide) (by decide)
      3 (by decide) (by decide)⟩

/-- Claim C4, witness at `apply(and, variable(0), variable(1))`. -/
theorem c4_dag_order_witness :
    (∀ j, 2 ≤ j → j < andXYresult.node_count →
      clow andXYresult.nodes j < j ∧ chigh andXYresult.nodes j < j) ∧
    andXYresult.root_node = andXYresult.node_count - 1 :=
  @c4_dag_order andZero andOne (Bdd.new_variable 0) (Bdd.new_variable 1) 32
    andXYresult (by decide) (by decide) (by decide) (by decide) (by decide)

/-- Claim C8, counterexample: the v2 parser accepts `"5,7,9"` and returns a
container whose node 0 is `pack(5,7,9)`, the record's parsed fields — not
the canonical false node: the v2 `TryFrom` implementation never overwrites
records 0 and 1. -/
theorem c8_counterexample :
    tryFromV2 ['5', ',', '7', ',', '9'] =
      .ok ⟨5, [BddNode.pack 5 7 9]⟩ ∧
    BddNode.pack 5 7 9 ≠ BddNode.ZERO := by
  decide

/-- Claim C8, amended: for the `perf_testing` parser the claim holds as
stated — for every input string it accepts, node 0 of the returned
container is the canonical false node and node 1 (when the container has
more than one node) is the canonical true node, regardless of the stored
field values (the v2 parser instead returns the records as parsed). -/
theorem c8_amended (s : List Char) (b : Pf.PBdd)
    (h : tryFromPf s = .ok b) :
    b.nodes.getD 0 Pf.PZERO = Pf.PZERO ∧
    (1 < b.nodes.length → b.nodes.getD 1 Pf.PZERO = Pf.PONE) := by
  unfold tryFromPf at h
  cases hp : parseNodes parseNodePf ((splitOnChar '|' s).filter (· ≠ [])) with
  | none => rw [hp] at h; exact absurd h (by simp)
  | some nodes =>
    rw [hp] at h
    cases nodes with
    | nil => exact absurd h (by simp)
    | cons n rest =>
      cases rest with
      | nil =>
        injection h with hb
        subst hb
        constructor
        · simp [Pf.fromRawNodes]
        · intro h1
          simp [Pf.fromRawNodes] at h1
      | cons m rest' =>
        injection h with hb
        subst hb
        constructor
        · simp [Pf.fromRawNodes]
        · intro h1
          simp [Pf.fromRawNodes]

/-- Claim C8, witness for the amended theorem: the input `"9,9,9|8,8,8"`
is accepted and both terminal records are overwritten. -/
theorem c8_amended_witness :
    (⟨0, [Pf.PZERO, Pf.PONE]⟩ : Pf.PBdd).nodes.getD 0 Pf.PZERO = Pf.PZERO ∧
    (1 < (⟨0, [Pf.PZERO, Pf.PONE]⟩ : Pf.PBdd).nodes.length →
      (⟨0, [Pf.PZERO, Pf.PONE]⟩ : Pf.PBdd).nodes.getD 1 Pf.PZERO = Pf.PONE) :=
  c8_amended ("9,9,9|8,8,8".toList) ⟨0, [Pf.PZERO, Pf.PONE]⟩ (by decide)

/-- Claim C10: on an input containing no node records — the empty string,
or a string of `'|'` separators only — both `TryFrom<&str>`
implementations panic (the v2 one indexes `nodes[0]` on the empty vector,
the `perf_testing` one unwraps `get_mut(0)`) instead of returning a parse
error. -/
theorem c10_empty_input_panics :
    tryFromV2 [] = .panic ∧ tryFromPf [] = .panic ∧
    tryFromV2 ['|'] = .panic ∧ tryFromPf ['|'] = .panic := by
  decide

namespace Pf

theorem testBit_PMASK (i : Nat) :
    PMASK.testBit i = (decide (48 ≤ i) && decide (i < 64)) := by
  unfold PMASK
  rw [Nat.testBit_shiftLeft, Nat.testBit_two_pow_sub_one]
  by_cases h48 : 48 ≤ i <;> by_cases h64 : i < 64 <;>
    simp [h48, h64] <;> omega

theorem w0_shiftRight_lt {w : Nat} (hw : w < 2 ^ 64) : w >>> 48 < 2 ^ 16 := by
  rw [Nat.shiftRight_eq_div_pow]
  apply Nat.div_lt_of_lt_mul
  calc w < 2 ^ 64 := hw
    _ = 2 ^ 48 * 2 ^ 16 := by norm_num
    _ = 2 ^ 16 * 2 ^ 48 := by ring

theorem dup_lt {t : Nat} (ht : t < 2 ^ 16) : t ||| t <<< 16 < 2 ^ 32 := by
  apply lor_lt_two_pow
  · exact Nat.lt_of_lt_of_le ht (by norm_num)
  · exact shiftLeft_lt_two_pow (by norm_num at ht ⊢; omega) (by omega)

theorem cpn_w0_lt {t l : Nat} (ht : t < 2 ^ 16) (hl : l < 2 ^ 48) :
    l ||| t <<< 48 < 2 ^ 64 := by
  apply lor_lt_two_pow
  · exact Nat.lt_of_lt_of_le hl (by norm_num)
  · exact shiftLeft_lt_two_pow (by norm_num at ht ⊢; omega) (by omega)

theorem pLow_cpn (t l h : Nat) (hl : l < 2 ^ 48) : pLow (cpn t l h) = l := by
  show (l ||| t <<< 48) &&& ADDRESS_MASK = l
  unfold ADDRESS_MASK
  rw [Nat.lor_comm]
  exact lor_shiftLeft_land t l 48 hl

theorem pHigh_cpn (t l h : Nat) (hh : h < 2 ^ 48) : pHigh (cpn t l h) = h := by
  show (h ||| t <<< 48) &&& ADDRESS_MASK = h
  unfold ADDRESS_MASK
  rw [Nat.lor_comm]
  exact lor_shiftLeft_land t h 48 hh

theorem shiftRight_lor_shiftLeft {t l : Nat} (hl : l < 2 ^ 48) :
    (l ||| t <<< 48) >>> 48 = t := by
  rw [Nat.lor_comm]
  exact lor_shiftLeft_shiftRight t l 48 hl

theorem pVar_eq_dup (n : PNode) (hw : n.w0 < 2 ^ 64) :
    pVar n = (n.w0 >>> 48) ||| (n.w0 >>> 48) <<< 16 := by
  unfold pVar
  have h1 : (n.w0 &&& PMASK) >>> 32 = (n.w0 >>> 48) <<< 16 := by
    apply Nat.eq_of_testBit_eq
    intro i
    rw [Nat.testBit_shiftRight, Nat.testBit_and, testBit_PMASK,
      Nat.testBit_shiftLeft, Nat.testBit_shiftRight]
    by_cases h16 : 16 ≤ i
    · by_cases h32 : i < 32
      · have heq : 48 + (i - 16) = 32 + i := by omega
        simp [h16, (by omega : 48 ≤ 32 + i), (by omega : 32 + i < 64), heq]
      · have hL : ¬ (32 + i < 64) := by omega
        have hR : n.w0.testBit (48 + (i - 16)) = false :=
          Nat.testBit_lt_two_pow
            (Nat.lt_of_lt_of_le hw (Nat.pow_le_pow_right (by omega) (by omega)))
        simp [h16, hL, hR]
    · have h48 : ¬ 48 ≤ 32 + i := by omega
      simp [h16, h48]
  rw [h1]
  exact Nat.mod_eq_of_lt (dup_lt (w0_shiftRight_lt hw))

theorem dup_mod_two_pow {t : Nat} (ht : t < 2 ^ 16) :
    (t ||| t <<< 16) % 2 ^ 16 = t := by
  apply Nat.eq_of_testBit_eq
  intro i
  rw [Nat.testBit_mod_two_pow, Nat.testBit_or, Nat.testBit_shiftLeft]
  by_cases h16 : i < 16
  · simp [h16, (by omega : ¬ 16 ≤ i)]
  · have hR : t.testBit i = false :=
      Nat.testBit_lt_two_pow
        (Nat.lt_of_lt_of_le ht (Nat.pow_le_pow_right (by omega) (by omega)))
    simp [h16, hR]

theorem ppack_dup_eq_cpn (t l h : Nat) (ht : t < 2 ^ 16) :
    ppack (t ||| t <<< 16) l h = cpn t l h := by
  have h0 : ((t ||| t <<< 16) <<< 48) % 2 ^ 64 = t <<< 48 := by
    rw [shiftLeft_mod_two_pow _ 48 64 (by omega)]
    congr 1
    exact dup_mod_two_pow ht
  have h1 : (((t ||| t <<< 16) <<< 32) % 2 ^ 64) &&& PMASK = t <<< 48 := by
    apply Nat.eq_of_testBit_eq
    intro i
    rw [Nat.testBit_and, Nat.testBit_mod_two_pow, Nat.testBit_shiftLeft,
      testBit_PMASK]
    rw [Nat.testBit_shiftLeft]
    by_cases h48 : 48 ≤ i
    · by_cases h64 : i < 64
      · have h32 : 32 ≤ i := by omega
        rw [Nat.testBit_or, Nat.testBit_shiftLeft]
        have hta : t.testBit (i - 32) = false :=
          Nat.testBit_lt_two_pow
            (Nat.lt_of_lt_of_le ht (Nat.pow_le_pow_right (by omega) (by omega)))
        have heq : i - 32 - 16 = i - 48 := by omega
        simp [h48, h64, h32, hta, (by omega : 16 ≤ i - 32), heq]
      · have hR : t.testBit (i - 48) = false :=
          Nat.testBit_lt_two_pow
            (Nat.lt_of_lt_of_le ht (Nat.pow_le_pow_right (by omega) (by omega)))
        simp [h48, h64, hR]
    · simp [h48]
  unfold ppack cpn
  rw [h0, h1]

theorem pVar_cpn (t l h : Nat) (ht : t < 2 ^ 16) (hl : l < 2 ^ 48) :
    pVar (cpn t l h) = t ||| t <<< 16 := by
  have hw : (cpn t l h).w0 < 2 ^ 64 := cpn_w0_lt ht hl
  rw [pVar_eq_dup _ hw]
  have h48 : (cpn t l h).w0 >>> 48 = t := shiftRight_lor_shiftLeft hl
  rw [h48]

theorem repack_cpn (t l h : Nat) (ht : t < 2 ^ 16) (hl : l < 2 ^ 48)
    (hh : h < 2 ^ 48) :
    ppack (pVar (cpn t l h)) (pLow (cpn t l h)) (pHigh (cpn t l h)) =
      cpn t l h := by
  rw [pVar_cpn t l h ht hl, pLow_cpn t l h hl, pHigh_cpn t l h hh,
    ppack_dup_eq_cpn t l h ht]

theorem ppack_pVar_eq_cpn (n : PNode) (hw : n.w0 < 2 ^ 64) (l h : Nat) :
    ppack (pVar n) l h = cpn (n.w0 >>> 48) l h := by
  rw [pVar_eq_dup n hw]
  exact ppack_dup_eq_cpn _ l h (w0_shiftRight_lt hw)

end Pf

/-- Claim C1: for every supported operation the `(is_zero, is_one)`
terminal-predicate pair must agree with the operation's Boolean table, and
`eval(apply(op, L, R), a) = op(eval(L, a), eval(R, a))`.  The code violates
this for `inv_imp` and `not_and`: `_u32_inv_imp` is given the predicate
pair of `and_not`, and `_u32_not_and` the pair of `imp` (the bodies are
byte-identical duplicates).  At `op = inv_imp`, `L = R = false`, the code
returns the constant-false BDD although `inv_imp(false, false) =
(false → false) = true`; at `op = not_and`, `L = true`, `R = false`, it
returns constant-false although `not_and(true, false) = ¬(true ∧ false) =
true`. -/
theorem c1_terminal_table_bug :
    u32_inv_imp Bdd.new_false Bdd.new_false 32 = some Bdd.new_false ∧
    Bdd.eval Bdd.new_false (fun _ => false) = false ∧
    invImpBool (Bdd.eval Bdd.new_false (fun _ => false))
      (Bdd.eval Bdd.new_false (fun _ => false)) = true ∧
    u32_not_and Bdd.new_true Bdd.new_false 32 = some Bdd.new_false ∧
    Bdd.eval Bdd.new_true (fun _ => false) = true ∧
    notAndBool (Bdd.eval Bdd.new_true (fun _ => false))
      (Bdd.eval Bdd.new_false (fun _ => false)) = true := by
  decide

/-- Claim C2, counterexample: the claim says that in every BDD produced by
apply "no node has low == high"; but node 0 (the false terminal,
`BddNode(VARIABLE_MASK, 0)`) of the BDD produced by
`apply(and, variable(0), variable(1))` has `low_link == high_link == 0`. -/
theorem c2_counterexample :
    (u32_and (Bdd.new_variable 0) (Bdd.new_variable 1) 32).map
      (fun B => (B.nodes.getD 0 BddNode.ONE).lowLink ==
        (B.nodes.getD 0 BddNode.ONE).highLink) = some true := by
  decide

/-- Claim C6, counterexample: `apply(and, variable(0), variable(1))`
produces the node list `[false, true, pack(1,0,1), pack(0,0,2)]` — the
root's high link is node 2, not node 3 as the claim states; no node
`pack(0,0,3)` occurs in the output at all. -/
theorem c6_counterexample :
    (u32_and (Bdd.new_variable 0) (Bdd.new_variable 1) 32).map Bdd.nodes =
      some [BddNode.ZERO, BddNode.ONE, BddNode.pack 1 0 1, BddNode.pack 0 0 2] ∧
    BddNode.pack 0 0 3 ∉
      [BddNode.ZERO, BddNode.ONE, BddNode.pack 1 0 1, BddNode.pack 0 0 2] := by
  decide

/-- Claim C6, amended: with `x = variable(0)` and `y = variable(1)`,
`apply(and, x, y)` returns a BDD with exactly 4 nodes, namely
`[false, true, pack(1,0,1), pack(0,0,2)]` at indices 0..3, with the root at
index 3 and variable count 2. -/
theorem c6_amended :
    u32_and (Bdd.new_variable 0) (Bdd.new_variable 1) 32 =
      some ⟨2, [BddNode.ZERO, BddNode.ONE, BddNode.pack 1 0 1,
        BddNode.pack 0 0 2]⟩ ∧
    (⟨2, [BddNode.ZERO, BddNode.ONE, BddNode.pack 1 0 1,
        BddNode.pack 0 0 2]⟩ : Bdd).node_count = 4 ∧
    (⟨2, [BddNode.ZERO, BddNode.ONE, BddNode.pack 1 0 1,
        BddNode.pack 0 0 2]⟩ : Bdd).root_node = 3 := by
  decide

/-- Claim C7, counterexample: the claim says the compact variant accepts
exactly the inputs with `L.node_count < 2^32` and `R.node_count < 2^31`,
but the assertions are strict comparisons against `MAX_LEFT_SIZE = 2^32-1`
and `MAX_RIGHT_SIZE = 2^31-1`: a left operand with `2^32 - 1` nodes
satisfies the claim's bound yet fails the code's assertion. -/
theorem c7_counterexample :
    bigLeftBdd.node_count < 2 ^ 32 ∧
    Bdd.new_false.node_count < 2 ^ 31 ∧
    ¬ u32SizeAssertions bigLeftBdd Bdd.new_false := by
  refine ⟨?_, by decide, ?_⟩
  · simp only [bigLeftBdd, Bdd.node_count, List.length_replicate]
    norm_num
  · simp only [u32SizeAssertions, bigLeftBdd, Bdd.node_count,
      List.length_replicate, MAX_LEFT_SIZE, not_and]
    intro h
    omega

/-- Claim C7, amended: the compact 32-bit apply variant accepts exactly the
inputs with `L.node_count < 2^32 - 1` and `R.node_count < 2^31 - 1`; for
ids within those bounds the pointer-pair encoding is lossless and never
sets the reserved result flag, so the operation proceeds without
pointer-range failure. -/
theorem c7_amended (L R : Bdd) (l r : Nat)
    (hl : l < 2 ^ 32 - 1) (hr : r < 2 ^ 31 - 1) :
    (u32SizeAssertions L R ↔
      L.node_count < 2 ^ 32 - 1 ∧ R.node_count < 2 ^ 31 - 1) ∧
    PointerPair.pairLeft (PointerPair.pairPack l r) = l ∧
    PointerPair.pairRight (PointerPair.pairPack l r) = r ∧
    PointerPair.isResultWord (PointerPair.pairPack l r) = false := by
  have hmr : MAX_RIGHT_SIZE = 2 ^ 31 - 1 := by decide
  refine ⟨?_, ?_, ?_, ?_⟩
  · unfold u32SizeAssertions
    rw [hmr]
    unfold MAX_LEFT_SIZE
    norm_num
  · unfold PointerPair.pairLeft PointerPair.pairPack
    rw [Nat.lor_comm]
    exact lor_shiftLeft_land r l 32 (by omega)
  · unfold PointerPair.pairRight PointerPair.pairPack
    rw [Nat.lor_comm, lor_shiftLeft_shiftRight r l 32 (by omega)]
    exact Nat.mod_eq_of_lt (by omega)
  · unfold PointerPair.isResultWord PointerPair.pairPack
    have h1 : l.testBit 63 = false :=
      Nat.testBit_lt_two_pow (by norm_num at hl ⊢; omega)
    have h2 : (r <<< 32).testBit 63 = false := by
      rw [Nat.testBit_shiftLeft]
      have : r.testBit 31 = false :=
        Nat.testBit_lt_two_pow (by norm_num at hr ⊢; omega)
      simp [this]
    simp [Nat.testBit_or, h1, h2]

/-- Claim C5: the claim says `sort_preorder` terminates without any
out-of-bounds access for every BDD satisfying the container invariants,
including the length-2 constant-true BDD with `variable_count = 0`.  The
code's guard only skips BDDs with fewer than 2 nodes, so the constant-true
BDD proceeds to the unchecked write of the root into a scratch stack of
length `3 * variable_count = 0` — an out-of-bounds write. -/
theorem c5_sort_preorder_oob :
    sortPreorderV2 Bdd.new_true 32 = .error SortErr.oob ∧
    Bdd.new_true.node_count = 2 ∧
    Bdd.new_true.variable_count = 0 :=
  ⟨rfl, rfl, rfl⟩

/-- Claim C7, witness for the amended theorem at `L = R = false`,
`l = r = 0`. -/
theorem c7_amended_witness :
    (u32SizeAssertions Bdd.new_false Bdd.new_false ↔
      Bdd.new_false.node_count < 2 ^ 32 - 1 ∧
      Bdd.new_false.node_count < 2 ^ 31 - 1) ∧
    PointerPair.pairLeft (PointerPair.pairPack 0 0) = 0 ∧
    PointerPair.pairRight (PointerPair.pairPack 0 0) = 0 ∧
    PointerPair.isResultWord (PointerPair.pairPack 0 0) = false :=
  c7_amended Bdd.new_false Bdd.new_false 0 0 (by decide) (by decide)

/-! ## List `getD` utilities for the sort proofs -/
/-- `getD` after `set` at the written index. -/
theorem getD_set_at {α : Type} {l : List α} {i : Nat} (h : i < l.length)
    (v d : α) : (l.set i v).getD i d = v := by
  simp [List.getD_eq_getElem?_getD, List.getElem?_set_self h]

/-- `getD` after `set` at a different index. -/
theorem getD_set_away {α : Type} {l : List α} {i j : Nat} (h : i ≠ j)
    (v d : α) : (l.set i v).getD j d = l.getD j d := by
  simp [List.getD_eq_getElem?_getD, List.getElem?_set_ne h]

/-- A successful `getElem?` determines `getD`. -/
theorem getD_of_getElem? {α : Type} {l : List α} {i : Nat} {a : α} (d : α)
    (h : l[i]? = some a) : l.getD i d = a := by
  simp [List.getD_eq_getElem?_getD, h]

/-- In-bounds `getElem?` phrased through `getD`. -/
theorem getElem?_eq_getD {α : Type} {l : List α} {i : Nat}
    (h : i < l.length) (d : α) : l[i]? = some (l.getD i d) := by
  rw [List.getElem?_eq_getElem h, List.getD_eq_getElem?_getD,
    List.getElem?_eq_getElem h]
  rfl

/-- `getD` of `replicate` with the replicated value as default. -/
theorem getD_replicate_self {α : Type} (n i : Nat) (a : α) :
    (List.replicate n a).getD i a = a := by
  rw [List.getD_eq_getElem?_getD, List.getElem?_replicate]
  by_cases h : i < n <;> simp [h]

namespace Pf

/-- Ids assigned by the DFS loop persist to its final id map. -/
theorem dfsLoop_persist {B : PBdd} {fuel : Nat} :
    ∀ {stack idMap : List Nat} {nf : Nat} {out : List Nat × Nat},
      dfsLoop B fuel stack idMap nf = some out →
      ∀ i, idMap.getD i UNDEF ≠ UNDEF →
        out.1.getD i UNDEF = idMap.getD i UNDEF := by
  induction fuel with
  | zero =>
    intro stack idMap nf out h
    simp [dfsLoop] at h
  | succ f ih =>
    intro stack idMap nf out h i hi
    unfold dfsLoop at h
    cases stack with
    | nil =>
      injection h with h
      rw [← h]
    | cons task stack' =>
      dsimp only at h
      cases hm : idMap[task]? with
      | none => rw [hm] at h; exact Option.noConfusion h
      | some tid =>
        rw [hm] at h
        dsimp only at h
        by_cases ht : tid = UNDEF
        · rw [if_pos ht] at h
          cases hn : B.nodes[task]? with
          | none => rw [hn] at h; exact Option.noConfusion h
          | some node =>
            rw [hn] at h
            dsimp only at h
            have htask : idMap.getD task UNDEF = tid := getD_of_getElem? UNDEF hm
            have hne : task ≠ i := by
              intro he
              rw [he] at htask
              rw [htask, ht] at hi
              exact hi rfl
            have hi' : (idMap.set task nf).getD i UNDEF ≠ UNDEF := by
              rw [getD_set_away hne]
              exact hi
            have := ih h i hi'
            rw [getD_set_away hne] at this
            exact this
        · rw [if_neg ht] at h
          exact ih h i hi

end Pf

/-- A successful `getElem?` is in bounds. -/
theorem lt_length_of_getElem? {α : Type} {l : List α} {i : Nat} {a : α}
    (h : l[i]? = some a) : i < l.length := by
  by_contra hc
  rw [List.getElem?_eq_none (Nat.le_of_not_lt hc)] at h
  exact Option.noConfusion h

namespace Pf

/-- While some non-terminal cell is unassigned, at most `len - 3` cells
are assigned. -/
theorem acount_le {len : Nat} (m : List Nat) {task : Nat} (h2 : 2 ≤ task)
    (hlt : task < len) (hu : m.getD task UNDEF = UNDEF) :
    acount len m ≤ len - 3 := by
  have hsub : ((Finset.range len).filter
      (fun i => 2 ≤ i ∧ m.getD i UNDEF ≠ UNDEF)) ⊆
      (Finset.Ico 2 len).erase task := by
    intro i hi
    rw [Finset.mem_filter, Finset.mem_range] at hi
    rw [Finset.mem_erase, Finset.mem_Ico]
    refine ⟨?_, hi.2.1, hi.1⟩
    intro he
    rw [he, hu] at hi
    exact hi.2.2 rfl
  have := Finset.card_le_card hsub
  rw [Finset.card_erase_of_mem (Finset.mem_Ico.mpr ⟨h2, hlt⟩),
    Nat.card_Ico] at this
  calc acount len m ≤ len - 2 - 1 := this
    _ = len - 3 := by omega

/-- Assigning a fresh non-terminal cell increments the assigned count. -/
theorem acount_set {len : Nat} {m : List Nat} {task v : Nat}
    (h2 : 2 ≤ task) (hlt : task < len) (hml : task < m.length)
    (hu : m.getD task UNDEF = UNDEF) (hv : v ≠ UNDEF) :
    acount len (m.set task v) = acount len m + 1 := by
  have hset : ((Finset.range len).filter
      (fun i => 2 ≤ i ∧ (m.set task v).getD i UNDEF ≠ UNDEF)) =
      insert task ((Finset.range len).filter
        (fun i => 2 ≤ i ∧ m.getD i UNDEF ≠ UNDEF)) := by
    ext i
    by_cases hi : i = task
    · subst hi
      simp [Finset.mem_filter, Finset.mem_insert, Finset.mem_range,
        hlt, h2, List.getElem?_set_self hml, hv]
    · have hne : task ≠ i := fun he => hi he.symm
      simp [Finset.mem_filter, Finset.mem_insert, Finset.mem_range,
        hi, List.getElem?_set_ne hne]
  rw [acount, acount, hset, Finset.card_insert_of_not_mem]
  intro hmem
  rw [Finset.mem_filter] at hmem
  exact hmem.2.2 hu

/-- The DFS loop of `sort_preorder` preserves `DfsInv`. -/
theorem dfsLoop_DfsInv {B : PBdd} {len : Nat}
    (hlen3 : 3 ≤ len) (hund : len ≤ UNDEF) {fuel : Nat} :
    ∀ {stack m : List Nat} {nf : Nat} {out : List Nat × Nat},
      dfsLoop B fuel stack m nf = some out →
      DfsInv len m nf → DfsInv len out.1 out.2 := by
  induction fuel with
  | zero =>
    intro stack m nf out h
    simp [dfsLoop] at h
  | succ f ih =>
    intro stack m nf out h hI
    unfold dfsLoop at h
    cases stack with
    | nil =>
      injection h with h
      rw [← h]
      exact hI
    | cons task stack' =>
      dsimp only at h
      cases hm : m[task]? with
      | none => rw [hm] at h; exact Option.noConfusion h
      | some tid =>
        rw [hm] at h
        dsimp only at h
        by_cases ht : tid = UNDEF
        · rw [if_pos ht] at h
          cases hn : B.nodes[task]? with
          | none => rw [hn] at h; exact Option.noConfusion h
          | some node =>
            rw [hn] at h
            dsimp only at h
            obtain ⟨hL, h0, h1, hrange, hinj, hnf, hcnt⟩ := hI
            have hml : task < m.length := lt_length_of_getElem? hm
            have htlen : task < len := by rw [← hL]; exact hml
            have hgd : m.getD task UNDEF = UNDEF := by
              rw [getD_of_getElem? UNDEF hm, ht]
            have ht2 : 2 ≤ task := by
              by_contra hc
              interval_cases task
              · rw [h0] at hgd
                exact absurd hgd (by decide)
              · rw [h1] at hgd
                exact absurd hgd (by decide)
            have hac := acount_le m ht2 htlen hgd
            have hnf2 : 2 ≤ nf := by omega
            have hnfU : nf ≠ UNDEF := Nat.ne_of_lt (Nat.lt_of_lt_of_le hnf hund)
            refine ih h ⟨?_, ?_, ?_, ?_, ?_, ?_, ?_⟩
            · rw [List.length_set]; exact hL
            · rw [getD_set_away (by omega : task ≠ 0)]; exact h0
            · rw [getD_set_away (by omega : task ≠ 1)]; exact h1
            · intro i h2i hilen hdef
              by_cases hit : i = task
              · subst hit
                rw [getD_set_at hml]
                exact ⟨by omega, hnf⟩
              · have hne : task ≠ i := fun he => hit he.symm
                rw [getD_set_away hne] at hdef ⊢
                have := hrange i h2i hilen hdef
                omega
            · intro i j hi hj hdefi heq
              by_cases hit : i = task <;> by_cases hjt : j = task
              · rw [hit, hjt]
              · exfalso
                subst hit
                rw [getD_set_at hml] at heq
                rw [getD_set_away (fun he => hjt he.symm)] at heq
                by_cases hdj : m.getD j UNDEF = UNDEF
                · rw [hdj] at heq
                  exact hnfU heq
                · by_cases hj2 : 2 ≤ j
                  · have := (hrange j hj2 hj hdj).1
                    omega
                  · interval_cases j
                    · rw [h0] at heq; omega
                    · rw [h1] at heq; omega
              · exfalso
                subst hjt
                rw [getD_set_at hml] at heq
                rw [getD_set_away (fun he => hit he.symm)] at heq hdefi
                by_cases hi2 : 2 ≤ i
                · have := (hrange i hi2 hi hdefi).1
                  omega
                · interval_cases i
                  · rw [h0] at heq; omega
                  · rw [h1] at heq; omega
              · have hnei : task ≠ i := fun he => hit he.symm
                have hnej : task ≠ j := fun he => hjt he.symm
                rw [getD_set_away hnei] at hdefi heq
                rw [getD_set_away hnej] at heq
                exact hinj i j hi hj hdefi heq
            · omega
            · rw [acount_set ht2 htlen hml hgd hnfU]
              omega
        · rw [if_neg ht] at h
          exact ih h hI

/-- Anatomy of a successful `copy_shuffled` loop run starting at index
`old` with `rem` iterations left: the output has the input's length; every
visited index is fully readable and its write lands (and survives, when no
later iteration targets the same slot); slots no iteration targets are
untouched. -/
theorem copyLoop_spec {B : PBdd} {sh : List Nat} :
    ∀ {rem old : Nat} {acc out : List PNode},
      copyLoop B sh rem old acc = some out →
      out.length = acc.length ∧
      (∀ o, old ≤ o → o < old + rem →
        ∃ ni node nlo nhi, sh[o]? = some ni ∧ B.nodes[o]? = some node ∧
          sh[pLow node]? = some nlo ∧ sh[pHigh node]? = some nhi ∧
          ni < acc.length ∧
          ((∀ o', o < o' → o' < old + rem → sh.getD o' UNDEF ≠ ni) →
            out.getD ni PZERO = ppack (pVar node) nlo nhi)) ∧
      (∀ j, (∀ o, old ≤ o → o < old + rem → sh.getD o UNDEF ≠ j) →
        out.getD j PZERO = acc.getD j PZERO) := by
  intro rem
  induction rem with
  | zero =>
    intro old acc out h
    injection h with h
    subst h
    exact ⟨rfl, fun o h1 h2 => absurd h2 (by omega), fun j _ => rfl⟩
  | succ f ih =>
    intro old acc out h
    unfold copyLoop at h
    cases hsh : sh[old]? with
    | none => rw [hsh] at h; exact Option.noConfusion h
    | some ni =>
      rw [hsh] at h
      cases hnd : B.nodes[old]? with
      | none => rw [hnd] at h; exact Option.noConfusion h
      | some node =>
        rw [hnd] at h
        dsimp only at h
        cases hlo : sh[pLow node]? with
        | none => rw [hlo] at h; exact Option.noConfusion h
        | some nlo =>
          rw [hlo] at h
          cases hhi : sh[pHigh node]? with
          | none => rw [hhi] at h; exact Option.noConfusion h
          | some nhi =>
            rw [hhi] at h
            dsimp only at h
            by_cases hni : ni < acc.length
            · rw [if_pos hni] at h
              obtain ⟨ihlen, ihmid, ihframe⟩ := ih h
              have hlen : out.length = acc.length := by
                rw [ihlen, List.length_set]
              refine ⟨hlen, ?_, ?_⟩
              · intro o h1 h2
                by_cases ho : o = old
                · subst ho
                  refine ⟨ni, node, nlo, nhi, hsh, hnd, hlo, hhi, hni, ?_⟩
                  intro hnc
                  have hfr := ihframe ni (fun o'' hb1 hb2 =>
                    hnc o'' (by omega) (by omega))
                  rw [hfr, getD_set_at hni]
                · obtain ⟨ni', node', nlo', nhi', a1, a2, a3, a4, a5, a6⟩ :=
                    ihmid o (by omega) (by omega)
                  refine ⟨ni', node', nlo', nhi', a1, a2, a3, a4, ?_, ?_⟩
                  · rw [List.length_set] at a5
                    exact a5
                  · intro hnc
                    exact a6 (fun o'' hb1 hb2 => hnc o'' (by omega) (by omega))
              · intro j hj
                have hnij : ni ≠ j := by
                  have := hj old (by omega) (by omega)
                  rw [getD_of_getElem? UNDEF hsh] at this
                  exact this
                have hfr := ihframe j (fun o'' hb1 hb2 =>
                  hj o'' (by omega) (by omega))
                rw [hfr, getD_set_away hnij]
            · rw [if_neg hni] at h
              exact Option.noConfusion h

/-- Running the `copy_shuffled` loop with the identity shuffle over a node
array whose non-terminal slots all have the canonical packed shape
rebuilds exactly the node array. -/
theorem copyLoop_identity {B' : PBdd} {sh : List Nat} {len : Nat}
    (hlen48 : len < 2 ^ 48) (hshlen : sh.length = len)
    (hid : ∀ j, j < len → sh.getD j UNDEF = j)
    (hBlen : B'.nodes.length = len)
    (hslot : ∀ j, 2 ≤ j → j < len →
      ∃ t l h, t < 2 ^ 16 ∧ l < len ∧ h < len ∧
        B'.nodes.getD j PZERO = cpn t l h) :
    ∀ {k old : Nat} {acc : List PNode}, old + k = len → 2 ≤ old →
      acc.length = len →
      (∀ j, j < old → acc.getD j PZERO = B'.nodes.getD j PZERO) →
      copyLoop B' sh k old acc = some B'.nodes := by
  intro k
  induction k with
  | zero =>
    intro old acc hsum h2 hacclen hagree
    have hacc : acc = B'.nodes := by
      apply List.ext_getElem?
      intro i
      by_cases hi : i < len
      · rw [getElem?_eq_getD (by rw [hacclen]; exact hi) PZERO,
          getElem?_eq_getD (by rw [hBlen]; exact hi) PZERO,
          hagree i (by omega)]
      · rw [List.getElem?_eq_none (by rw [hacclen]; omega),
          List.getElem?_eq_none (by rw [hBlen]; omega)]
    rw [copyLoop, hacc]
  | succ f ih =>
    intro old acc hsum h2 hacclen hagree
    have hold : old < len := by omega
    obtain ⟨t, l, hgh, ht, hl, hh, hcpn⟩ := hslot old h2 hold
    have hl48 : l < 2 ^ 48 := by omega
    have hh48 : hgh < 2 ^ 48 := by omega
    have hsh : sh[old]? = some old := by
      rw [getElem?_eq_getD (by rw [hshlen]; exact hold) UNDEF, hid old hold]
    have hnd : B'.nodes[old]? = some (cpn t l hgh) := by
      rw [getElem?_eq_getD (by rw [hBlen]; exact hold) PZERO, hcpn]
    have hlow : sh[pLow (cpn t l hgh)]? = some l := by
      rw [pLow_cpn t l hgh hl48,
        getElem?_eq_getD (by rw [hshlen]; exact hl) UNDEF, hid l hl]
    have hhigh : sh[pHigh (cpn t l hgh)]? = some hgh := by
      rw [pHigh_cpn t l hgh hh48,
        getElem?_eq_getD (by rw [hshlen]; exact hh) UNDEF, hid hgh hh]
    unfold copyLoop
    rw [hsh, hnd]
    dsimp only
    rw [hlow, hhigh]
    dsimp only
    rw [if_pos (by rw [hacclen]; exact hold)]
    rw [pVar_cpn t l hgh ht hl48, ppack_dup_eq_cpn t l hgh ht]
    apply ih (by omega) (by omega)
    · rw [List.length_set]; exact hacclen
    · intro j hj
      by_cases hjo : j = old
      · subst hjo
        rw [getD_set_at (by rw [hacclen]; exact hold), hcpn]
      · rw [getD_set_away (fun he => hjo he.symm)]
        exact hagree j (by omega)

/-- Simulation of the second `sort_preorder` DFS by the first: when the
first DFS (on `B`) terminates with final id map `σ` and cursor 1, the
second DFS (on the copied BDD `B'`, whose node at `σ old` repacks node
`old` with `σ`-renamed links) visits the `σ`-images of the same tasks in
the same order and ends with an id map fixing every `σ` value. -/
theorem dfsLoop_sim {B B' : PBdd} {len : Nat} {σ : List Nat}
    (hUlen : len ≤ UNDEF)
    (hdef : ∀ i, 2 ≤ i → i < len → σ.getD i UNDEF ≠ UNDEF)
    (hrange : ∀ i, 2 ≤ i → i < len →
      1 < σ.getD i UNDEF ∧ σ.getD i UNDEF < len)
    (hσ0 : σ.getD 0 UNDEF = 0) (hσ1 : σ.getD 1 UNDEF = 1)
    (hinj : ∀ i j, i < len → j < len → σ.getD i UNDEF ≠ UNDEF →
      σ.getD i UNDEF = σ.getD j UNDEF → i = j)
    (hB' : ∀ old, 2 ≤ old → old < len →
      ∃ node, B.nodes[old]? = some node ∧ node.w0 < 2 ^ 64 ∧
        pLow node < len ∧ pHigh node < len ∧
        σ.getD (pLow node) UNDEF < 2 ^ 48 ∧
        σ.getD (pHigh node) UNDEF < 2 ^ 48 ∧
        B'.nodes[σ.getD old UNDEF]? =
          some (ppack (pVar node) (σ.getD (pLow node) UNDEF)
            (σ.getD (pHigh node) UNDEF))) :
    ∀ {fuel : Nat} {stack m₁ m₂ : List Nat} {nf : Nat},
      dfsLoop B fuel stack m₁ nf = some (σ, 1) →
      m₁.length = len → m₂.length = len →
      m₁.getD 0 UNDEF ≠ UNDEF → m₁.getD 1 UNDEF ≠ UNDEF →
      (∀ i, i < len → m₂.getD (σ.getD i UNDEF) UNDEF =
        if m₁.getD i UNDEF = UNDEF then UNDEF else σ.getD i UNDEF) →
      (∀ t ∈ stack, t < len) →
      nf < len →
      ∃ m₂F, dfsLoop B' fuel (stack.map (fun t => σ.getD t UNDEF)) m₂ nf =
          some (m₂F, 1) ∧ m₂F.length = len ∧
        ∀ i, i < len → m₂F.getD (σ.getD i UNDEF) UNDEF = σ.getD i UNDEF := by
  intro fuel
  induction fuel with
  | zero =>
    intro stack m₁ m₂ nf h
    simp [dfsLoop] at h
  | succ f ih =>
    intro stack m₁ m₂ nf h hm1len hm2len h0 h1 hmap hstk hnf
    unfold dfsLoop at h
    cases stack with
    | nil =>
      injection h with h
      injection h with hA hB
      subst hA
      subst hB
      refine ⟨m₂, rfl, hm2len, ?_⟩
      intro i hi
      have hne : m₁.getD i UNDEF ≠ UNDEF := by
        by_cases h2 : 2 ≤ i
        · exact hdef i h2 hi
        · interval_cases i
          · rw [hσ0]; decide
          · rw [hσ1]; decide
      have := hmap i hi
      rw [if_neg hne] at this
      exact this
    | cons task rest =>
      dsimp only at h
      have htlen : task < len := hstk task (List.mem_cons_self task rest)
      cases hm : m₁[task]? with
      | none => rw [hm] at h; exact Option.noConfusion h
      | some tid =>
        rw [hm] at h
        dsimp only at h
        have hgd1 : m₁.getD task UNDEF = tid := getD_of_getElem? UNDEF hm
        have hσtlen : σ.getD task UNDEF < len := by
          by_cases h2 : 2 ≤ task
          · exact (hrange task h2 htlen).2
          · interval_cases task
            · rw [hσ0]; omega
            · rw [hσ1]; omega
        have hm2 : m₂[σ.getD task UNDEF]? =
            some (m₂.getD (σ.getD task UNDEF) UNDEF) :=
          getElem?_eq_getD (by rw [hm2len]; exact hσtlen) UNDEF
        by_cases ht : tid = UNDEF
        · rw [if_pos ht] at h
          cases hn : B.nodes[task]? with
          | none => rw [hn] at h; exact Option.noConfusion h
          | some node =>
            rw [hn] at h
            dsimp only at h
            have ht2 : 2 ≤ task := by
              by_contra hc
              interval_cases task
              · exact h0 (by rw [hgd1, ht])
              · exact h1 (by rw [hgd1, ht])
            obtain ⟨node', hnode', hw64, hplow, hphigh, hσl48, hσh48, hB'n⟩ :=
              hB' task ht2 htlen
            rw [hnode'] at hn
            injection hn with he
            subst he
            have hset : (m₁.set task nf).getD task UNDEF = nf :=
              getD_set_at (by rw [hm1len]; exact htlen) nf UNDEF
            have hnfU : nf ≠ UNDEF :=
              Nat.ne_of_lt (Nat.lt_of_lt_of_le hnf hUlen)
            have hσtask : σ.getD task UNDEF = nf := by
              have := dfsLoop_persist h task (by rw [hset]; exact hnfU)
              rw [hset] at this
              exact this
            have hm2v : m₂.getD (σ.getD task UNDEF) UNDEF = UNDEF := by
              have := hmap task htlen
              rw [if_pos (by rw [hgd1]; exact ht)] at this
              exact this
            have hstk' : ∀ t ∈ (pLow node' :: pHigh node' :: rest), t < len := by
              intro t htm
              rcases List.mem_cons.mp htm with rfl | htm'
              · exact hplow
              · rcases List.mem_cons.mp htm' with rfl | htm''
                · exact hphigh
                · exact hstk t (List.mem_cons_of_mem task htm'')
            have hmap' : ∀ i, i < len →
                (m₂.set (σ.getD task UNDEF) nf).getD (σ.getD i UNDEF) UNDEF =
                if (m₁.set task nf).getD i UNDEF = UNDEF then UNDEF
                else σ.getD i UNDEF := by
              intro i hi
              by_cases hit : i = task
              · subst hit
                rw [getD_set_at (by rw [hm2len]; exact hσtlen) nf UNDEF,
                  hset, if_neg hnfU, hσtask]
              · have hnei : task ≠ i := fun he => hit he.symm
                have hneσ : σ.getD task UNDEF ≠ σ.getD i UNDEF := by
                  intro heq
                  exact hnei (hinj task i htlen hi
                    (by rw [hσtask]; exact hnfU) heq)
                rw [getD_set_away hneσ, getD_set_away hnei]
                exact hmap i hi
            obtain ⟨m₂F, hrun2, hlenF, hfinal⟩ := ih h
              (by rw [List.length_set]; exact hm1len)
              (by rw [List.length_set]; exact hm2len)
              (by rw [getD_set_away (by omega : task ≠ 0)]; exact h0)
              (by rw [getD_set_away (by omega : task ≠ 1)]; exact h1)
              hmap' hstk' (by omega)
            refine ⟨m₂F, ?_, hlenF, hfinal⟩
            rw [List.map_cons]
            unfold dfsLoop
            dsimp only
            rw [hm2, hm2v]
            dsimp only
            rw [if_pos rfl, hB'n]
            dsimp only
            rw [ppack_pVar_eq_cpn node' hw64,
              pLow_cpn _ _ _ hσl48, pHigh_cpn _ _ _ hσh48]
            rw [List.map_cons, List.map_cons] at hrun2
            exact hrun2
        · rw [if_neg ht] at h
          have hσtU : σ.getD task UNDEF ≠ UNDEF :=
            Nat.ne_of_lt (Nat.lt_of_lt_of_le hσtlen hUlen)
          have hm2v : m₂.getD (σ.getD task UNDEF) UNDEF = σ.getD task UNDEF := by
            have := hmap task htlen
            rw [if_neg (by rw [hgd1]; exact ht)] at this
            exact this
          obtain ⟨m₂F, hrun2, hlenF, hfinal⟩ := ih h hm1len hm2len h0 h1 hmap
            (fun t htm => hstk t (List.mem_cons_of_mem task htm)) hnf
          refine ⟨m₂F, ?_, hlenF, hfinal⟩
          rw [List.map_cons]
          unfold dfsLoop
          dsimp only
          rw [hm2, hm2v]
          dsimp only
          rw [if_neg hσtU]
          exact hrun2

/-- The initial id map of `sort_preorder` maps the terminals to themselves
and everything else to `UNDEFINED`. -/
theorem initMap_getD {len : Nat} (hlen : 2 ≤ len) (i : Nat) :
    (((List.replicate len UNDEF).set 0 0).set 1 1).getD i UNDEF =
      if i = 0 then 0 else if i = 1 then 1 else UNDEF := by
  by_cases h0 : i = 0
  · subst h0
    rw [getD_set_away (by omega : (1 : Nat) ≠ 0),
      getD_set_at (by rw [List.length_replicate]; omega) 0 UNDEF]
    simp
  · by_cases h1 : i = 1
    · subst h1
      rw [getD_set_at
        (by rw [List.length_set, List.length_replicate]; omega) 1 UNDEF]
      simp
    · rw [getD_set_away (fun he => h1 he.symm),
        getD_set_away (fun he => h0 he.symm), getD_replicate_self]
      simp [h0, h1]

/-- The initial `sort_preorder` state satisfies the DFS invariant. -/
theorem DfsInv_init {len : Nat} (hlen3 : 3 ≤ len) :
    DfsInv len (((List.replicate len UNDEF).set 0 0).set 1 1) (len - 1) := by
  refine ⟨?_, ?_, ?_, ?_, ?_, ?_, ?_⟩
  · simp
  · rw [initMap_getD (by omega) 0]
    simp
  · rw [initMap_getD (by omega) 1]
    simp
  · intro i h2 hi hd
    rw [initMap_getD (by omega) i, if_neg (by omega), if_neg (by omega)] at hd
    exact absurd rfl hd
  · intro i j hi hj hdi heq
    rw [initMap_getD (by omega) i] at hdi heq
    rw [initMap_getD (by omega) j] at heq
    by_cases hi0 : i = 0
    · subst hi0
      rw [if_pos rfl] at heq
      by_cases hj0 : j = 0
      · exact hj0.symm
      · rw [if_neg hj0] at heq
        by_cases hj1 : j = 1
        · rw [if_pos hj1] at heq
          exact absurd heq (by decide)
        · rw [if_neg hj1] at heq
          exact absurd heq (by decide)
    · rw [if_neg hi0] at hdi heq
      by_cases hi1 : i = 1
      · subst hi1
        rw [if_pos rfl] at heq
        by_cases hj0 : j = 0
        · subst hj0
          rw [if_pos rfl] at heq
          exact absurd heq (by decide)
        · rw [if_neg hj0] at heq
          by_cases hj1 : j = 1
          · exact hj1.symm
          · rw [if_neg hj1] at heq
            exact absurd heq (by decide)
      · rw [if_neg hi1] at hdi
        exact absurd rfl hdi
  · omega
  · have hempty : ((Finset.range len).filter
        (fun i => 2 ≤ i ∧
          ((((List.replicate len UNDEF).set 0 0).set 1 1).getD i UNDEF ≠
            UNDEF))) = ∅ := by
      rw [Finset.filter_eq_empty_iff]
      intro x hx hc
      rw [initMap_getD (by omega) x, if_neg (by omega), if_neg (by omega)]
        at hc
      exact hc.2 rfl
    rw [acount, hempty]
    simp

/-- The first DFS of `sort_preorder` assigns the root its own index. -/
theorem dfsLoop_root_fixed {B : PBdd} {fuel : Nat} {σ : List Nat}
    (hlen3 : 3 ≤ B.nodes.length) (hUlen : B.nodes.length ≤ UNDEF)
    (hrun : dfsLoop B fuel [rootId B]
      (((List.replicate B.nodes.length UNDEF).set 0 0).set 1 1)
      (B.nodes.length - 1) = some (σ, 1)) :
    σ.getD (B.nodes.length - 1) UNDEF = B.nodes.length - 1 := by
  cases fuel with
  | zero => simp [dfsLoop] at hrun
  | succ f =>
    unfold dfsLoop at hrun
    dsimp only at hrun
    have hroot : rootId B = B.nodes.length - 1 := rfl
    have hm0root :
        (((List.replicate B.nodes.length UNDEF).set 0 0).set 1 1)[rootId
          B]? = some UNDEF := by
      rw [hroot, getElem?_eq_getD
        (by simp [List.length_set, List.length_replicate]; omega) UNDEF,
        initMap_getD (by omega), if_neg (by omega), if_neg (by omega)]
    rw [hm0root] at hrun
    dsimp only at hrun
    rw [if_pos rfl] at hrun
    cases hnd : B.nodes[rootId B]? with
    | none => rw [hnd] at hrun; exact Option.noConfusion hrun
    | some node =>
      rw [hnd] at hrun
      dsimp only at hrun
      have hset : (((((List.replicate B.nodes.length UNDEF).set 0 0).set
          1 1)).set (rootId B) (B.nodes.length - 1)).getD (rootId B)
          UNDEF = B.nodes.length - 1 := by
        apply getD_set_at
        rw [hroot]
        simp [List.length_set, List.length_replicate]
        omega
      have hne : B.nodes.length - 1 ≠ UNDEF :=
        Nat.ne_of_lt (Nat.lt_of_lt_of_le (by omega) hUlen)
      have := dfsLoop_persist hrun (rootId B) (by rw [hset]; exact hne)
      rw [hset] at this
      rw [hroot] at this
      exact this

end Pf

/-- Claim C9: `sort_preorder` of `src/perf_testing.rs` is idempotent —
whenever sorting a BDD succeeds, sorting the result again succeeds and
returns the same BDD unchanged: the second DFS visits the nodes in the
order of their (already pre-order) indices, reassigns every node its own
index, and the rebuild pass rewrites every packed node to the same words.
The hypotheses state the `u64` range of the stored words and the
`NodeId`-format bound on the node count, both guaranteed by the container
in the source. -/
theorem c9_sort_preorder_idempotent (B : Pf.PBdd) (fuel : Nat)
    (B' : Pf.PBdd)
    (hw : ∀ n ∈ B.nodes, n.w0 < 2 ^ 64)
    (hlen48 : B.nodes.length < 2 ^ 48)
    (h : Pf.sortPreorderPf B fuel = some B') :
    Pf.sortPreorderPf B' fuel = some B' := by
  by_cases htriv : B.nodes.length ≤ 2
  · unfold Pf.sortPreorderPf at h ⊢
    rw [if_pos htriv] at h
    injection h with h
    subst h
    rw [if_pos htriv]
  · unfold Pf.sortPreorderPf at h
    rw [if_neg htriv] at h
    dsimp only at h
    cases hrun : Pf.dfsLoop B fuel [Pf.rootId B]
        (((List.replicate B.nodes.length Pf.UNDEF).set 0 0).set 1 1)
        (B.nodes.length - 1) with
    | none => rw [hrun] at h; exact Option.noConfusion h
    | some p =>
      rw [hrun] at h
      obtain ⟨σ, nf₀⟩ := p
      dsimp only at h
      by_cases hnf : nf₀ = 1
      · rw [if_pos hnf] at h
        subst hnf
        unfold Pf.copyShuffled at h
        dsimp only at h
        cases hcopy : Pf.copyLoop B σ (σ.length - 2) 2
            ([Pf.PZERO, Pf.PONE] ++
              List.replicate (B.nodes.length - 2) Pf.PZERO) with
        | none => rw [hcopy] at h; exact Option.noConfusion h
        | some nodes' =>
          rw [hcopy] at h
          injection h with h
          subst h
          have hlen3 : 3 ≤ B.nodes.length := by omega
          have hUlen : B.nodes.length ≤ Pf.UNDEF := by
            unfold Pf.UNDEF
            omega
          have hInvF := Pf.dfsLoop_DfsInv hlen3 hUlen hrun
            (Pf.DfsInv_init hlen3)
          dsimp only at hInvF
          obtain ⟨hσlen, hσ0, hσ1, hrangeF, hinjF, -, -⟩ := hInvF
          have hbaselen : ([Pf.PZERO, Pf.PONE] ++
              List.replicate (B.nodes.length - 2) Pf.PZERO).length =
              B.nodes.length := by
            simp
            omega
          have hb : 2 + (σ.length - 2) = B.nodes.length := by
            rw [hσlen]
            omega
          obtain ⟨hCL, hCmid, hCframe⟩ := Pf.copyLoop_spec hcopy
          have hnodeslen : nodes'.length = B.nodes.length := by
            rw [hCL, hbaselen]
          have hdefF : ∀ i, 2 ≤ i → i < B.nodes.length →
              σ.getD i Pf.UNDEF ≠ Pf.UNDEF := by
            intro i h2 hi
            obtain ⟨ni, nd, nlo, nhi, hshi, -, -, -, hni, -⟩ :=
              hCmid i h2 (by omega)
            rw [getD_of_getElem? Pf.UNDEF hshi]
            have hni' : ni < B.nodes.length := by
              rw [← hbaselen]
              exact hni
            exact Nat.ne_of_lt (Nat.lt_of_lt_of_le hni' hUlen)
          have hrange' : ∀ i, 2 ≤ i → i < B.nodes.length →
              1 < σ.getD i Pf.UNDEF ∧ σ.getD i Pf.UNDEF < B.nodes.length :=
            fun i h2 hi => hrangeF i h2 hi (hdefF i h2 hi)
          have hσb : ∀ i, i < B.nodes.length →
              σ.getD i Pf.UNDEF < B.nodes.length := by
            intro i hi
            by_cases h2 : 2 ≤ i
            · exact (hrange' i h2 hi).2
            · interval_cases i
              · rw [hσ0]; omega
              · rw [hσ1]; omega
          have hB'char : ∀ old, 2 ≤ old → old < B.nodes.length →
              ∃ node, B.nodes[old]? = some node ∧ node.w0 < 2 ^ 64 ∧
                Pf.pLow node < B.nodes.length ∧
                Pf.pHigh node < B.nodes.length ∧
                σ.getD (Pf.pLow node) Pf.UNDEF < B.nodes.length ∧
                σ.getD (Pf.pHigh node) Pf.UNDEF < B.nodes.length ∧
                nodes'[σ.getD old Pf.UNDEF]? =
                  some (Pf.ppack (Pf.pVar node)
                    (σ.getD (Pf.pLow node) Pf.UNDEF)
                    (σ.getD (Pf.pHigh node) Pf.UNDEF)) := by
            intro old h2 ho
            obtain ⟨ni, node, nlo, nhi, hshi, hnd, hlo, hhi, hni, hwrite⟩ :=
              hCmid old h2 (by omega)
            have hniv : σ.getD old Pf.UNDEF = ni :=
              getD_of_getElem? Pf.UNDEF hshi
            have hplow : Pf.pLow node < B.nodes.length := by
              have := lt_length_of_getElem? hlo
              rw [hσlen] at this
              exact this
            have hphigh : Pf.pHigh node < B.nodes.length := by
              have := lt_length_of_getElem? hhi
              rw [hσlen] at this
              exact this
            have hnlov : σ.getD (Pf.pLow node) Pf.UNDEF = nlo :=
              getD_of_getElem? Pf.UNDEF hlo
            have hnhiv : σ.getD (Pf.pHigh node) Pf.UNDEF = nhi :=
              getD_of_getElem? Pf.UNDEF hhi
            have hw64 : node.w0 < 2 ^ 64 := hw node (List.getElem?_mem hnd)
            have hnocol : ∀ o', old < o' → o' < 2 + (σ.length - 2) →
                σ.getD o' Pf.UNDEF ≠ ni := by
              intro o' hgt hlt heq
              have ho' : o' < B.nodes.length := by omega
              have : o' = old := hinjF o' old ho' ho
                (hdefF o' (by omega) ho') (by rw [heq, hniv])
              omega
            have hfin := hwrite hnocol
            refine ⟨node, hnd, hw64, hplow, hphigh, hσb _ hplow,
              hσb _ hphigh, ?_⟩
            rw [hniv, hnlov, hnhiv,
              getElem?_eq_getD (by rw [hnodeslen, ← hbaselen]; exact hni)
                Pf.PZERO, hfin]
          have hfmaps : ∀ a, a ∈ Finset.Ico 2 B.nodes.length →
              σ.getD a Pf.UNDEF ∈ Finset.Ico 2 B.nodes.length := by
            intro a ha
            rw [Finset.mem_Ico] at ha ⊢
            have := hrange' a ha.1 ha.2
            omega
          have hfinj : ∀ a₁ a₂, a₁ ∈ Finset.Ico 2 B.nodes.length →
              a₂ ∈ Finset.Ico 2 B.nodes.length →
              σ.getD a₁ Pf.UNDEF = σ.getD a₂ Pf.UNDEF → a₁ = a₂ := by
            intro a₁ a₂ ha₁ ha₂ heq
            rw [Finset.mem_Ico] at ha₁ ha₂
            exact hinjF a₁ a₂ ha₁.2 ha₂.2 (hdefF a₁ ha₁.1 ha₁.2) heq
          have hpig := Finset.surj_on_of_inj_on_of_card_le
            ((fun a _ => σ.getD a Pf.UNDEF) :
              ∀ a ∈ Finset.Ico 2 B.nodes.length, Nat)
            hfmaps hfinj (Nat.le_refl _)
          have hsurj : ∀ j, 2 ≤ j → j < B.nodes.length →
              ∃ i, 2 ≤ i ∧ i < B.nodes.length ∧ σ.getD i Pf.UNDEF = j := by
            intro j hj2 hjlen
            obtain ⟨a, ha, hja⟩ := hpig j (Finset.mem_Ico.mpr ⟨hj2, hjlen⟩)
            rw [Finset.mem_Ico] at ha
            exact ⟨a, ha.1, ha.2, hja.symm⟩
          have hσroot := Pf.dfsLoop_root_fixed hlen3 hUlen hrun
          have hB'sim : ∀ old, 2 ≤ old → old < B.nodes.length →
              ∃ node, B.nodes[old]? = some node ∧ node.w0 < 2 ^ 64 ∧
                Pf.pLow node < B.nodes.length ∧
                Pf.pHigh node < B.nodes.length ∧
                σ.getD (Pf.pLow node) Pf.UNDEF < 2 ^ 48 ∧
                σ.getD (Pf.pHigh node) Pf.UNDEF < 2 ^ 48 ∧
                (Pf.PBdd.mk B.height nodes').nodes[σ.getD old Pf.UNDEF]? =
                  some (Pf.ppack (Pf.pVar node)
                    (σ.getD (Pf.pLow node) Pf.UNDEF)
                    (σ.getD (Pf.pHigh node) Pf.UNDEF)) := by
            intro old h2 ho
            obtain ⟨node, a1, a2, a3, a4, a5, a6, a7⟩ := hB'char old h2 ho
            exact ⟨node, a1, a2, a3, a4, by omega, by omega, a7⟩
          have hmap₀ : ∀ i, i < B.nodes.length →
              (((List.replicate B.nodes.length Pf.UNDEF).set 0 0).set
                1 1).getD (σ.getD i Pf.UNDEF) Pf.UNDEF =
              if (((List.replicate B.nodes.length Pf.UNDEF).set 0 0).set
                  1 1).getD i Pf.UNDEF = Pf.UNDEF then Pf.UNDEF
              else σ.getD i Pf.UNDEF := by
            intro i hi
            by_cases h2 : 2 ≤ i
            · have hm0i : (((List.replicate B.nodes.length Pf.UNDEF).set
                  0 0).set 1 1).getD i Pf.UNDEF = Pf.UNDEF := by
                rw [Pf.initMap_getD (by omega) i, if_neg (by omega),
                  if_neg (by omega)]
              rw [hm0i, if_pos rfl]
              have := hrange' i h2 hi
              rw [Pf.initMap_getD (by omega) (σ.getD i Pf.UNDEF),
                if_neg (by omega), if_neg (by omega)]
            · interval_cases i
              · rw [hσ0, Pf.initMap_getD (by omega) 0]
                decide
              · rw [hσ1, Pf.initMap_getD (by omega) 1]
                decide
          obtain ⟨m₂F, hrun2, hm2Flen, hfix⟩ := Pf.dfsLoop_sim hUlen hdefF
            hrange' hσ0 hσ1 hinjF hB'sim hrun
            (by simp)
            (by simp)
            (by rw [Pf.initMap_getD (by omega) 0]; decide)
            (by rw [Pf.initMap_getD (by omega) 1]; decide)
            hmap₀
            (by
              intro t htm
              rw [List.mem_singleton] at htm
              subst htm
              have : Pf.rootId B = B.nodes.length - 1 := rfl
              omega)
            (by omega)
          have hrun2' : Pf.dfsLoop (Pf.PBdd.mk B.height nodes') fuel
              [B.nodes.length - 1]
              (((List.replicate B.nodes.length Pf.UNDEF).set 0 0).set 1 1)
              (B.nodes.length - 1) = some (m₂F, 1) := by
            have := hrun2
            simp only [List.map_cons, List.map_nil] at this
            unfold Pf.rootId at this
            rw [hσroot] at this
            exact this
          have hidentity : ∀ j, j < B.nodes.length →
              m₂F.getD j Pf.UNDEF = j := by
            intro j hj
            by_cases h2 : 2 ≤ j
            · obtain ⟨i, hi2, hilen, hσi⟩ := hsurj j h2 hj
              have := hfix i hilen
              rw [hσi] at this
              exact this
            · interval_cases j
              · have := hfix 0 (by omega)
                rw [hσ0] at this
                exact this
              · have := hfix 1 (by omega)
                rw [hσ1] at this
                exact this
          have hslot : ∀ j, 2 ≤ j → j < B.nodes.length →
              ∃ t l hgh, t < 2 ^ 16 ∧ l < B.nodes.length ∧
                hgh < B.nodes.length ∧
                nodes'.getD j Pf.PZERO = Pf.cpn t l hgh := by
            intro j h2 hj
            obtain ⟨i, hi2, hilen, hσi⟩ := hsurj j h2 hj
            obtain ⟨node, hnd, hw64, hpl, hph, hσl, hσh, hget⟩ :=
              hB'char i hi2 hilen
            refine ⟨node.w0 >>> 48, σ.getD (Pf.pLow node) Pf.UNDEF,
              σ.getD (Pf.pHigh node) Pf.UNDEF,
              Pf.w0_shiftRight_lt hw64, hσl, hσh, ?_⟩
            rw [← hσi, getD_of_getElem? Pf.PZERO hget,
              Pf.ppack_pVar_eq_cpn node hw64]
          have hagree : ∀ j, j < 2 →
              ([Pf.PZERO, Pf.PONE] ++
                List.replicate (B.nodes.length - 2) Pf.PZERO).getD j
                Pf.PZERO = nodes'.getD j Pf.PZERO := by
            intro j hj
            have hframe := hCframe j (by
              intro o ho2 holt heq
              have ho' : o < B.nodes.length := by omega
              have := hrange' o ho2 ho'
              omega)
            rw [hframe]
          have hBlen' : (Pf.PBdd.mk B.height nodes').nodes.length =
              B.nodes.length := hnodeslen
          have hslot' : ∀ j, 2 ≤ j → j < B.nodes.length →
              ∃ t l hgh, t < 2 ^ 16 ∧ l < B.nodes.length ∧
                hgh < B.nodes.length ∧
                (Pf.PBdd.mk B.height nodes').nodes.getD j Pf.PZERO =
                  Pf.cpn t l hgh := hslot
          have hagree' : ∀ j, j < 2 →
              ([Pf.PZERO, Pf.PONE] ++
                List.replicate (B.nodes.length - 2) Pf.PZERO).getD j
                Pf.PZERO =
              (Pf.PBdd.mk B.height nodes').nodes.getD j Pf.PZERO := hagree
          have hfinal := Pf.copyLoop_identity hlen48 hm2Flen hidentity
            hBlen' hslot' (by omega : 2 + (B.nodes.length - 2) =
              B.nodes.length) (by omega) hbaselen
            (fun j hj => hagree' j hj)
          unfold Pf.sortPreorderPf Pf.rootId
          dsimp only
          rw [hnodeslen]
          rw [if_neg (by omega : ¬ B.nodes.length ≤ 2)]
          rw [hrun2']
          dsimp only
          rw [if_pos rfl]
          unfold Pf.copyShuffled
          dsimp only
          rw [hnodeslen, hm2Flen, hfinal]
      · rw [if_neg hnf] at h
        exact Option.noConfusion h

/-- Claim C9, witness: for the xor BDD the sorted result is a fixed point
of `sort_preorder`, obtained by the idempotence theorem with all
hypotheses checked by evaluation. -/
theorem c9_sort_preorder_idempotent_witness :
    Pf.sortPreorderPf xorPBddSorted 32 = some xorPBddSorted :=
  c9_sort_preorder_idempotent xorPBdd 32 xorPBddSorted
    (by decide) (by decide) (by decide)

end Ruddy
